import Mathlib

/-!
Shallow embedding of the rating-normalization and label-placement logic of the
Trustworthy_Digital_Society repository.

Rating normalizer: `extract_base_rating` and `convert_rating_to_numeric` from
`src/GTI/code/scrape_bond_data.py`, together with the three agency lookup
tables `SP_RATINGS`, `MOODYS_RATINGS`, `FITCH_RATINGS`.  Python strings are
modelled as Lean `String` (a structure over `List Char`); Python floats as `ℚ`;
Python `None` as `Option.none`; the Python dicts as association lists (their
keys are distinct, so `List.lookup` agrees with dict lookup).

Grade categorization: `categorize_by_average_rating` from
`src/GTI/code/generate_ratings_table.py`, plus the row-wise skipna mean with
numpy half-even rounding from `scrape_credit_ratings`.

Label placement: the two greedy collision-avoidance loops of
`create_full_plot` and `create_investment_grade_plot` from
`src/Code/visualize_bond_data.py`, modelled on the already sorted sequence of
(x, y) points with coordinates in `ℚ`.
-/

namespace BondData

/-- Python default whitespace characters, as stripped by `str.strip()`. -/
def pyWs (c : Char) : Bool :=
  c = ' ' || c = '\t' || c = '\n' || c = '\r' || c = '\x0b' || c = '\x0c'

/-- Left part of Python `str.strip()`. -/
def lstrip (l : List Char) : List Char := l.dropWhile pyWs

/-- Right part of Python `str.strip()`. -/
def rstrip (l : List Char) : List Char := (l.reverse.dropWhile pyWs).reverse

/-- Python `str.strip()` with no arguments. -/
def pyStrip (l : List Char) : List Char := rstrip (lstrip l)

/-- Python substring test `pat in s`. -/
def containsSub (pat : List Char) : List Char → Bool
  | [] => pat.isEmpty
  | c :: rest => pat.isPrefixOf (c :: rest) || containsSub pat rest

/-- Fuelled worker for `replaceAll`; the fuel only makes the recursion
structural and is irrelevant as soon as it dominates the list length. -/
def replaceAllFuel (pat rep : List Char) : ℕ → List Char → List Char
  | 0, s => s
  | _ + 1, [] => []
  | n + 1, c :: rest =>
    if pat.isPrefixOf (c :: rest) then
      rep ++ replaceAllFuel pat rep n (rest.drop (pat.length - 1))
    else c :: replaceAllFuel pat rep n rest

/-- Python `str.replace(pat, rep)`: replace every non-overlapping occurrence,
scanning left to right. -/
def replaceAll (pat rep : List Char) (s : List Char) : List Char :=
  replaceAllFuel pat rep s.length s

/-- ASCII letter class `[A-Za-z]` of the extraction pattern. -/
def isLetter (c : Char) : Bool := ('A' ≤ c && c ≤ 'Z') || ('a' ≤ c && c ≤ 'z')

/-- Optional sign `[\+\-]?` matched greedily at the head of a list. -/
def signOf : List Char → List Char
  | c :: _ => if c = '+' || c = '-' then [c] else []
  | [] => []

/-- Optional trailing digit `[123]?` matched greedily at the head of a list. -/
def digitOf : List Char → List Char
  | c :: _ => if c = '1' || c = '2' || c = '3' then [c] else []
  | [] => []

/-- Greedy match of the regular expression `([A-Za-z]{1,3}[\+\-]?[123]?)`
anchored at the head of `s`; `re.search` applies it at the position of the
first letter, where the match always succeeds. -/
def matchAt (s : List Char) : List Char :=
  let letters := (s.takeWhile isLetter).take 3
  let rest := s.drop letters.length
  let sign := signOf rest
  let rest2 := rest.drop sign.length
  let digit := digitOf rest2
  letters ++ sign ++ digit

/-- Python `re.search` with the extraction pattern: the leftmost position
where the pattern matches is the first letter of `s` (the pattern requires
at least one letter); `none` when `s` has no letter. -/
def reSearch : List Char → Option (List Char)
  | [] => none
  | c :: rest => if isLetter c then some (matchAt (c :: rest)) else reSearch rest

/-- The literal upgrade tag appearing in scraped cell text. -/
def upTag : List Char := "[upgrade]".data

/-- Upgrade tag preceded by the four spaces inserted by the scraper. -/
def upTag4 : List Char := "    [upgrade]".data

/-- The literal downgrade tag appearing in scraped cell text. -/
def dnTag : List Char := "[downgrade]".data

/-- Downgrade tag preceded by the four spaces inserted by the scraper. -/
def dnTag4 : List Char := "    [downgrade]".data

/-- `extract_base_rating` of `scrape_bond_data.py` (lines 96-112). -/
def extract_base_rating (rating_text : String) : String :=
  if rating_text = "" ∨ rating_text = "N/A" ∨ rating_text = "-" ∨ rating_text = "NR" then "N/A"
  else
    let clean : String := ⟨pyStrip (replaceAll dnTag4 [] (replaceAll upTag4 [] rating_text.data))⟩
    if clean = "SD" ∨ clean = "RD" then "D"
    else
      match reSearch clean.data with
      | some m => ⟨m⟩
      | none => clean

/-- `convert_rating_to_numeric` of `scrape_bond_data.py` (lines 114-137). -/
def convert_rating_to_numeric (rating_text : String) (rating_dict : List (String × ℕ)) :
    Option ℚ :=
  if rating_text = "" then none
  else
    let upgrade_modifier : ℚ :=
      if containsSub upTag4 rating_text.data || containsSub upTag rating_text.data then 1/3
      else if containsSub dnTag4 rating_text.data || containsSub dnTag rating_text.data then -1/3
      else 0
    let base_rating := extract_base_rating rating_text
    if base_rating = "N/A" then none
    else
      match rating_dict.lookup base_rating with
      | none => none
      | some v => some ((v : ℚ) + upgrade_modifier)

/-- The S&P conversion table of `scrape_bond_data.py` (lines 45-53). -/
def SP_RATINGS : List (String × ℕ) :=
  [("AAA", 22), ("AA+", 21), ("AA", 20), ("AA-", 19),
   ("A+", 18), ("A", 17), ("A-", 16),
   ("BBB+", 15), ("BBB", 14), ("BBB-", 13),
   ("BB+", 12), ("BB", 11), ("BB-", 10),
   ("B+", 9), ("B", 8), ("B-", 7),
   ("CCC+", 6), ("CCC", 5), ("CCC-", 4),
   ("CC", 3), ("C", 2), ("D", 1)]

/-- The Moodys conversion table of `scrape_bond_data.py` (lines 55-63). -/
def MOODYS_RATINGS : List (String × ℕ) :=
  [("Aaa", 22), ("Aa1", 21), ("Aa2", 20), ("Aa3", 19),
   ("A1", 18), ("A2", 17), ("A3", 16),
   ("Baa1", 15), ("Baa2", 14), ("Baa3", 13),
   ("Ba1", 12), ("Ba2", 11), ("Ba3", 10),
   ("B1", 9), ("B2", 8), ("B3", 7),
   ("Caa1", 6), ("Caa2", 5), ("Caa3", 4),
   ("Ca", 3), ("C", 1)]

/-- The Fitch conversion table of `scrape_bond_data.py` (lines 65-73). -/
def FITCH_RATINGS : List (String × ℕ) :=
  [("AAA", 22), ("AA+", 21), ("AA", 20), ("AA-", 19),
   ("A+", 18), ("A", 17), ("A-", 16),
   ("BBB+", 15), ("BBB", 14), ("BBB-", 13),
   ("BB+", 12), ("BB", 11), ("BB-", 10),
   ("B+", 9), ("B", 8), ("B-", 7),
   ("CCC+", 6), ("CCC", 5), ("CCC-", 4),
   ("CC", 3), ("C", 2), ("D", 1)]

/-- Grade categories with their numeric ranges, in the insertion order of
`RATING_GRADES` in `generate_ratings_table.py` (lines 11-21). -/
def RATING_GRADES : List (String × ℕ × ℕ) :=
  [("Prime", 22, 22),
   ("High Medium Grade", 19, 21),
   ("Upper Medium Grade", 16, 18),
   ("Lower Medium Grade", 13, 15),
   ("Speculative", 10, 12),
   ("Highly Speculative", 7, 9),
   ("Substantial Risk", 4, 6),
   ("Extremely Speculative", 2, 3),
   ("In Default", 1, 1)]

/-- `categorize_by_average_rating` of `generate_ratings_table.py` (lines 23-33);
a missing (NaN) average is modelled as `none`. -/
def categorize_by_average_rating : Option ℚ → String
  | none => "No Rating"
  | some avg =>
    match RATING_GRADES.find? (fun g => decide ((g.2.1 : ℚ) ≤ avg ∧ avg ≤ (g.2.2 : ℚ))) with
    | some g => g.1
    | none => "No Rating"

/-- numpy round-half-to-even of a rational to an integer. -/
def roundHalfEven (q : ℚ) : ℤ :=
  let f := ⌊q⌋
  let r := q - (f : ℚ)
  if r < 1/2 then f
  else if 1/2 < r then f + 1
  else if f % 2 = 0 then f else f + 1

/-- Rounding to two decimal places as applied by `.round(2)` in the source. -/
def round2 (q : ℚ) : ℚ := (roundHalfEven (q * 100) : ℚ) / 100

/-- Row-wise `mean(axis=1, skipna=True).round(2)` over the three per-agency
numeric columns (`scrape_bond_data.py` lines 295-296): absent values are
skipped and the mean of zero present values is absent (pandas yields NaN,
which `categorize_by_average_rating` treats as missing). -/
def average_rating (xs : List (Option ℚ)) : Option ℚ :=
  let present := xs.filterMap id
  if present.isEmpty then none
  else some (round2 (present.sum / (present.length : ℚ)))

/-- Collision adjustment of `create_full_plot` (lines 185-193): scan every
already placed label in order, and on each hit move the candidate to the
colliding label y ± 0.8. -/
def fullAdjust (lx : ℚ) : ℚ → List (ℚ × ℚ) → ℚ
  | ly, [] => ly
  | ly, (ux, uy) :: rest =>
    fullAdjust lx
      (if |lx - ux| < 50 then
        (if |ly - uy| < 4/5 then (if uy ≤ ly then uy + 4/5 else uy - 4/5) else ly)
       else ly) rest

/-- Label loop of `create_full_plot` (lines 181-195) on the sorted points. -/
def fullLoop (used : List (ℚ × ℚ)) : List (ℚ × ℚ) → List (ℚ × ℚ)
  | [] => []
  | (x, y) :: rest =>
    let lx := x + 8
    let ly := fullAdjust lx y used
    (lx, ly) :: fullLoop (used ++ [(lx, ly)]) rest

/-- Placed label positions of `create_full_plot` for the sorted input points. -/
def create_full_plot_labels (pts : List (ℚ × ℚ)) : List (ℚ × ℚ) := fullLoop [] pts

/-- Number of already placed labels colliding with the candidate y (the
`overlap` sum of `create_investment_grade_plot`, lines 374-376). -/
def igCollisions (lx cand : ℚ) (used : List (ℚ × ℚ)) : ℕ :=
  (used.filter (fun u => decide (|lx - u.1| < 40) && decide (|cand - u.2| < 3/5))).length

/-- Displacement candidates tried by `create_investment_grade_plot`
(lines 363-368), relative to the colliding label y. -/
def igCandidates (uy : ℚ) : List ℚ := [uy + 3/5, uy - 3/5, uy + 9/10, uy - 9/10]

/-- One step of the best-candidate fold of `create_investment_grade_plot`
(lines 370-381): in-range candidates with strictly fewer collisions replace
the current best; `none` stands for the initial infinite best count. -/
def igBestStep (lx : ℚ) (used : List (ℚ × ℚ)) (acc : ℚ × Option ℕ) (cand : ℚ) :
    ℚ × Option ℕ :=
  if 69/5 ≤ cand ∧ cand ≤ 45/2 then
    let ov := igCollisions lx cand used
    match acc.2 with
    | none => (cand, some ov)
    | some m => if ov < m then (cand, some ov) else acc
  else acc

/-- Best displaced position of `create_investment_grade_plot` for a collision
with a placed label at height `uy`; the original `ly` when no candidate lies
in the valid range [13.8, 22.5]. -/
def igBest (lx ly : ℚ) (used : List (ℚ × ℚ)) (uy : ℚ) : ℚ :=
  ((igCandidates uy).foldl (igBestStep lx used) (ly, none)).1

/-- Scan of `create_investment_grade_plot` (lines 358-383): the first placed
label within the horizontal window and closer than 0.6 vertically; the loop
breaks at this label. -/
def igFindCollision (lx ly : ℚ) : List (ℚ × ℚ) → Option ℚ
  | [] => none
  | (ux, uy) :: rest =>
    if |lx - ux| < 40 then
      if |ly - uy| < 3/5 then some uy else igFindCollision lx ly rest
    else igFindCollision lx ly rest

/-- Position resolution for one point of `create_investment_grade_plot`. -/
def igAdjust (lx ly : ℚ) (used : List (ℚ × ℚ)) : ℚ :=
  match igFindCollision lx ly used with
  | none => ly
  | some uy => igBest lx ly used uy

/-- Label loop of `create_investment_grade_plot` (lines 353-384) on the
sorted points. -/
def igLoop (used : List (ℚ × ℚ)) : List (ℚ × ℚ) → List (ℚ × ℚ)
  | [] => []
  | (x, y) :: rest =>
    let lx := x + 8
    let ly := igAdjust lx y used
    (lx, ly) :: igLoop (used ++ [(lx, ly)]) rest

/-- Placed label positions of `create_investment_grade_plot` for the sorted
input points. -/
def create_investment_grade_labels (pts : List (ℚ × ℚ)) : List (ℚ × ℚ) := igLoop [] pts

/-- Valid vertical range [13.8, 22.5] of the investment-grade variant. -/
def igInRange (c : ℚ) : Prop := 69/5 ≤ c ∧ c ≤ 45/2

/-- Run of `n` space characters. -/
def spaces (n : ℕ) : List Char := List.replicate n ' '

/-- Letter component of a `matchAt` result. -/
def keyLetters (s : List Char) : List Char := (s.takeWhile isLetter).take 3

/-- Sign component of a `matchAt` result. -/
def keySign (s : List Char) : List Char := signOf (s.drop (keyLetters s).length)

/-- Digit component of a `matchAt` result. -/
def keyDigit (s : List Char) : List Char :=
  digitOf ((s.drop (keyLetters s).length).drop (keySign s).length)

/-- Well-formedness of a lookup key for the whitespace-tolerance analysis:
the key is exactly what the extraction pattern matches, and it is neither a
special default indicator nor contains the tag letter 'u'. -/
def goodKey (k : List Char) : Bool :=
  decide (k = keyLetters k ++ keySign k ++ keyDigit k) && decide (keyLetters k ≠ []) &&
  decide ('u' ∉ k) && decide (k ≠ "SD".data) && decide (k ≠ "RD".data)

/-! Helper lemmas about the two placement loops. -/

theorem fullLoop_length (pts : List (ℚ × ℚ)) :
    ∀ used, (fullLoop used pts).length = pts.length := by
  induction pts with
  | nil => intro used; rfl
  | cons p rest ih => intro used; cases p with | mk x y => simp [fullLoop, ih]

theorem igLoop_length (pts : List (ℚ × ℚ)) :
    ∀ used, (igLoop used pts).length = pts.length := by
  induction pts with
  | nil => intro used; rfl
  | cons p rest ih => intro used; cases p with | mk x y => simp [igLoop, ih]

theorem fullLoop_fst (pts : List (ℚ × ℚ)) :
    ∀ used, (fullLoop used pts).map Prod.fst = pts.map (fun p => p.1 + 8) := by
  induction pts with
  | nil => intro used; rfl
  | cons p rest ih => intro used; cases p with | mk x y => simp [fullLoop, ih]

theorem igLoop_fst (pts : List (ℚ × ℚ)) :
    ∀ used, (igLoop used pts).map Prod.fst = pts.map (fun p => p.1 + 8) := by
  induction pts with
  | nil => intro used; rfl
  | cons p rest ih => intro used; cases p with | mk x y => simp [igLoop, ih]

theorem igBestStep_not_inR (lx : ℚ) (used : List (ℚ × ℚ)) (acc : ℚ × Option ℕ) (c : ℚ)
    (h : ¬ igInRange c) : igBestStep lx used acc c = acc := by
  rw [igInRange] at h
  simp [igBestStep, h]

theorem foldl_best_none (lx : ℚ) (used : List (ℚ × ℚ)) :
    ∀ (cs : List ℚ) (b : ℚ), (∀ c ∈ cs, ¬ igInRange c) →
      cs.foldl (igBestStep lx used) (b, none) = (b, none) := by
  intro cs
  induction cs with
  | nil => intro b _; rfl
  | cons c cs ih =>
    intro b h
    rw [List.foldl_cons, igBestStep_not_inR lx used _ c (h c (List.mem_cons_self c cs))]
    exact ih b (fun c' hc' => h c' (List.mem_cons_of_mem c hc'))

theorem foldl_best_some (lx : ℚ) (used : List (ℚ × ℚ)) :
    ∀ (cs : List ℚ) (r₀ : ℚ),
      ∃ r, cs.foldl (igBestStep lx used) (r₀, some (igCollisions lx r₀ used))
              = (r, some (igCollisions lx r used)) ∧
        (r = r₀ ∨ (r ∈ cs ∧ igInRange r)) ∧
        igCollisions lx r used ≤ igCollisions lx r₀ used ∧
        ∀ c ∈ cs, igInRange c → igCollisions lx r used ≤ igCollisions lx c used := by
  intro cs
  induction cs with
  | nil => intro r₀; exact ⟨r₀, rfl, Or.inl rfl, le_refl _, by simp⟩
  | cons c cs ih =>
    intro r₀
    by_cases hin : igInRange c
    · by_cases hlt : igCollisions lx c used < igCollisions lx r₀ used
      · have hstep : igBestStep lx used (r₀, some (igCollisions lx r₀ used)) c
            = (c, some (igCollisions lx c used)) := by
          have hin' := hin; rw [igInRange] at hin'
          simp [igBestStep, hin', hlt]
        obtain ⟨r, hfold, hmem, hle, hall⟩ := ih c
        refine ⟨r, by rw [List.foldl_cons, hstep]; exact hfold, ?_, le_trans hle hlt.le, ?_⟩
        · rcases hmem with h | h
          · exact Or.inr ⟨by rw [h]; exact List.mem_cons_self c cs, h ▸ hin⟩
          · exact Or.inr ⟨List.mem_cons_of_mem c h.1, h.2⟩
        · intro c' hc' hin'
          rcases List.mem_cons.mp hc' with h | h
          · rw [h]; exact hle
          · exact hall c' h hin'
      · have hstep : igBestStep lx used (r₀, some (igCollisions lx r₀ used)) c
            = (r₀, some (igCollisions lx r₀ used)) := by
          have hin' := hin; rw [igInRange] at hin'
          simp [igBestStep, hin', hlt]
        obtain ⟨r, hfold, hmem, hle, hall⟩ := ih r₀
        refine ⟨r, by rw [List.foldl_cons, hstep]; exact hfold, hmem.imp id
            (fun h => ⟨List.mem_cons_of_mem c h.1, h.2⟩), hle, ?_⟩
        intro c' hc' hin'
        rcases List.mem_cons.mp hc' with h | h
        · rw [h]; exact le_trans hle (not_lt.mp hlt)
        · exact hall c' h hin'
    · have hstep := igBestStep_not_inR lx used (r₀, some (igCollisions lx r₀ used)) c hin
      obtain ⟨r, hfold, hmem, hle, hall⟩ := ih r₀
      refine ⟨r, by rw [List.foldl_cons, hstep]; exact hfold, hmem.imp id
          (fun h => ⟨List.mem_cons_of_mem c h.1, h.2⟩), hle, ?_⟩
      intro c' hc' hin'
      rcases List.mem_cons.mp hc' with h | h
      · exact absurd (h ▸ hin') hin
      · exact hall c' h hin'

theorem foldl_best_start (lx : ℚ) (used : List (ℚ × ℚ)) :
    ∀ (cs : List ℚ) (b : ℚ), (∃ c ∈ cs, igInRange c) →
      ∃ r, cs.foldl (igBestStep lx used) (b, none) = (r, some (igCollisions lx r used)) ∧
        r ∈ cs ∧ igInRange r ∧
        ∀ c ∈ cs, igInRange c → igCollisions lx r used ≤ igCollisions lx c used := by
  intro cs
  induction cs with
  | nil => rintro b ⟨c, hc, _⟩; cases hc
  | cons c cs ih =>
    intro b hex
    by_cases hin : igInRange c
    · have hstep : igBestStep lx used (b, none) c = (c, some (igCollisions lx c used)) := by
        have hin' := hin; rw [igInRange] at hin'
        simp [igBestStep, hin']
      obtain ⟨r, hfold, hmem, hle, hall⟩ := foldl_best_some lx used cs c
      refine ⟨r, by rw [List.foldl_cons, hstep]; exact hfold, ?_, ?_, ?_⟩
      · rcases hmem with h | h
        · rw [h]; exact List.mem_cons_self c cs
        · exact List.mem_cons_of_mem c h.1
      · rcases hmem with h | h
        · exact h ▸ hin
        · exact h.2
      · intro c' hc' hin'
        rcases List.mem_cons.mp hc' with h | h
        · rw [h]; exact hle
        · exact hall c' h hin'
    · have hstep := igBestStep_not_inR lx used (b, none) c hin
      rcases hex with ⟨c', hc', hin'⟩
      rcases List.mem_cons.mp hc' with h | h
      · exact absurd (h ▸ hin') hin
      · obtain ⟨r, hfold, hmem, hinr, hall⟩ := ih b ⟨c', h, hin'⟩
        refine ⟨r, by rw [List.foldl_cons, hstep]; exact hfold,
          List.mem_cons_of_mem c hmem, hinr, ?_⟩
        intro c'' hc'' hin''
        rcases List.mem_cons.mp hc'' with h2 | h2
        · exact absurd (h2 ▸ hin'') hin
        · exact hall c'' h2 hin''

/-! Claim theorems. -/

/-- Claim C1: for the S&P table the normalizer maps "AAA" to 22, "BBB+    [upgrade]"
to 15 + 1/3, "SD" to 1 and "N/A" to absent, and the empty string is absent
under every table. -/
theorem convert_rating_examples :
    convert_rating_to_numeric "AAA" SP_RATINGS = some 22 ∧
    convert_rating_to_numeric "BBB+    [upgrade]" SP_RATINGS = some (15 + 1/3) ∧
    convert_rating_to_numeric "SD" SP_RATINGS = some 1 ∧
    convert_rating_to_numeric "N/A" SP_RATINGS = none ∧
    ∀ t : List (String × ℕ), convert_rating_to_numeric "" t = none := by
  refine ⟨?_, ?_, ?_, rfl, fun _ => rfl⟩
  · have h : convert_rating_to_numeric "AAA" SP_RATINGS = some ((22 : ℕ) + (0 : ℚ)) := rfl
    rw [h]; norm_num
  · have h : convert_rating_to_numeric "BBB+    [upgrade]" SP_RATINGS
        = some ((15 : ℕ) + (1/3 : ℚ)) := rfl
    rw [h]; norm_num
  · have h : convert_rating_to_numeric "SD" SP_RATINGS = some ((1 : ℕ) + (0 : ℚ)) := rfl
    rw [h]; norm_num

/-- Claim C2: the normalizer is a total function that returns absent (`none`), never
an error, on malformed or unmapped input: the empty string, "N/A", "-", "NR"
under every table, and any text whose extracted base code is not a key of the
given table. -/
theorem convert_rating_total_absent :
    (∀ t : List (String × ℕ),
      convert_rating_to_numeric "" t = none ∧
      convert_rating_to_numeric "N/A" t = none ∧
      convert_rating_to_numeric "-" t = none ∧
      convert_rating_to_numeric "NR" t = none) ∧
    ∀ (s : String) (t : List (String × ℕ)),
      t.lookup (extract_base_rating s) = none → convert_rating_to_numeric s t = none := by
  refine ⟨fun t => ⟨rfl, rfl, rfl, rfl⟩, ?_⟩
  intro s t h
  by_cases h1 : s = ""
  · simp [convert_rating_to_numeric, h1]
  · by_cases h2 : extract_base_rating s = "N/A"
    · simp [convert_rating_to_numeric, h1, h2]
    · simp [convert_rating_to_numeric, h1, h2, h]

/-- Witness for C2 at a concrete unmapped input. -/
theorem convert_rating_total_absent_witness :
    convert_rating_to_numeric "ZZZ" SP_RATINGS = none :=
  convert_rating_total_absent.2 "ZZZ" SP_RATINGS (by decide)

/-- Claim C3: in each agency table every key maps to an integer in [1, 22], no two
keys of one table share a value, and the level Moodys omits (value 2) is
absent from its table rather than reused. -/
theorem rating_tables_invariant :
    (∀ p ∈ SP_RATINGS, 1 ≤ p.2 ∧ p.2 ≤ 22) ∧ (SP_RATINGS.map Prod.snd).Nodup ∧
    (∀ p ∈ MOODYS_RATINGS, 1 ≤ p.2 ∧ p.2 ≤ 22) ∧ (MOODYS_RATINGS.map Prod.snd).Nodup ∧
    2 ∉ MOODYS_RATINGS.map Prod.snd ∧
    (∀ p ∈ FITCH_RATINGS, 1 ≤ p.2 ∧ p.2 ≤ 22) ∧ (FITCH_RATINGS.map Prod.snd).Nodup := by
  decide

/-- Claim C4 is refuted: with zero whitespace between the base code and the tag,
the special default indicator "SD" is not recognised: the result is absent
instead of the claimed 1 + 1/3. -/
theorem outlook_whitespace_counterexample :
    convert_rating_to_numeric "SD[upgrade]" SP_RATINGS = none ∧
    convert_rating_to_numeric "SD[upgrade]" SP_RATINGS ≠ some (1 + 1/3) := by
  have h : convert_rating_to_numeric "SD[upgrade]" SP_RATINGS = none := rfl
  exact ⟨h, by rw [h]; exact (Option.noConfusion ·)⟩

/-- Claim C5: both placement loops output exactly one position per input point. -/
theorem resolver_length_preserved (pts : List (ℚ × ℚ)) :
    (create_full_plot_labels pts).length = pts.length ∧
    (create_investment_grade_labels pts).length = pts.length :=
  ⟨fullLoop_length pts [], igLoop_length pts []⟩

/-- Claim C6: for two points with identical x and y, the full-plot variant always
separates the two labels by the gap 0.8, and the investment-grade variant
separates them by at least the gap 0.6 provided a slot displaced by exactly
0.6 lies within the valid vertical range. -/
theorem resolver_two_identical_points :
    (∀ x y : ℚ, create_full_plot_labels [(x, y), (x, y)]
        = [(x + 8, y), (x + 8, y + 4/5)] ∧ (4/5 : ℚ) ≤ |(y + 4/5) - y|) ∧
    (∀ x y : ℚ, igInRange (y + 3/5) ∨ igInRange (y - 3/5) →
      ∃ b, create_investment_grade_labels [(x, y), (x, y)] = [(x + 8, y), (x + 8, b)]
        ∧ (3/5 : ℚ) ≤ |b - y|) := by
  constructor
  · intro x y
    constructor
    · show fullLoop [] [(x, y), (x, y)] = _
      simp only [fullLoop, List.nil_append]
      have h0 : fullAdjust (x + 8) y [] = y := rfl
      rw [h0]
      have h1 : fullAdjust (x + 8) y [(x + 8, y)] = y + 4/5 := by
        norm_num [fullAdjust]
      rw [h1]
    · rw [show y + 4/5 - y = (4/5 : ℚ) by ring, abs_of_nonneg (by norm_num : (0:ℚ) ≤ 4/5)]
  · intro x y h
    have hcol : igFindCollision (x + 8) y [(x + 8, y)] = some y := by
      norm_num [igFindCollision]
    have hex : ∃ c ∈ igCandidates y, igInRange c := by
      rcases h with h | h
      · exact ⟨y + 3/5, by simp [igCandidates], h⟩
      · exact ⟨y - 3/5, by simp [igCandidates], h⟩
    obtain ⟨r, hfold, hmem, hin, hall⟩ :=
      foldl_best_start (x + 8) [(x + 8, y)] (igCandidates y) y hex
    have hadj2 : igAdjust (x + 8) y [(x + 8, y)] = igBest (x + 8) y [(x + 8, y)] y := by
      rw [igAdjust, hcol]
    have hb : igAdjust (x + 8) y [(x + 8, y)] = r := by
      rw [hadj2, igBest, hfold]
    refine ⟨r, ?_, ?_⟩
    · show igLoop [] [(x, y), (x, y)] = _
      simp only [igLoop, List.nil_append]
      have h0 : igAdjust (x + 8) y [] = y := rfl
      rw [h0, hb]
    · simp only [igCandidates, List.mem_cons, List.not_mem_nil, or_false] at hmem
      rcases hmem with h | h | h | h
      · rw [h, show y + 3/5 - y = (3/5 : ℚ) by ring,
          abs_of_nonneg (by norm_num : (0:ℚ) ≤ 3/5)]
      · rw [h, show y - 3/5 - y = -(3/5 : ℚ) by ring, abs_neg,
          abs_of_nonneg (by norm_num : (0:ℚ) ≤ 3/5)]
      · rw [h, show y + 9/10 - y = (9/10 : ℚ) by ring,
          abs_of_nonneg (by norm_num : (0:ℚ) ≤ 9/10)]
        norm_num
      · rw [h, show y - 9/10 - y = -(9/10 : ℚ) by ring, abs_neg,
          abs_of_nonneg (by norm_num : (0:ℚ) ≤ 9/10)]
        norm_num

/-- Witness for C6 at the concrete pair of coincident points (0, 20). -/
theorem resolver_two_identical_points_witness :
    (create_full_plot_labels [(0, 20), (0, 20)] = [(0 + 8, 20), (0 + 8, 20 + 4/5)] ∧
      (4/5 : ℚ) ≤ |((20 : ℚ) + 4/5) - 20|) ∧
    ∃ b, create_investment_grade_labels [(0, 20), (0, 20)] = [(0 + 8, 20), (0 + 8, b)] ∧
      (3/5 : ℚ) ≤ |b - 20| :=
  ⟨resolver_two_identical_points.1 0 20,
   resolver_two_identical_points.2 0 20 (Or.inl (by rw [igInRange]; norm_num))⟩

/-- Claim C7 is refuted: in the full-plot variant a collision within the window
moves the second label from y = 10.7 to the colliding label y + 0.8 = 10.8,
a displacement of 0.1 — neither ±d (0.8) nor ±1.5d — with no candidate set,
no fewest-collision choice and no vertical-range bound. -/
theorem resolver_displacement_counterexample :
    create_full_plot_labels [(0, 10), (0, 107/10)] = [(8, 10), (8, 54/5)] ∧
    |(107/10 : ℚ) - 10| < 4/5 ∧
    |(54/5 : ℚ) - 107/10| ≠ 4/5 ∧ |(54/5 : ℚ) - 107/10| ≠ 6/5 := by
  refine ⟨?_, ?_, ?_, ?_⟩
  · norm_num [create_full_plot_labels, fullLoop, fullAdjust, abs]
  · rw [show (107/10 : ℚ) - 10 = 7/10 by norm_num,
      abs_of_nonneg (by norm_num : (0:ℚ) ≤ 7/10)]
    norm_num
  · rw [show (54/5 : ℚ) - 107/10 = 1/10 by norm_num,
      abs_of_nonneg (by norm_num : (0:ℚ) ≤ 1/10)]
    norm_num
  · rw [show (54/5 : ℚ) - 107/10 = 1/10 by norm_num,
      abs_of_nonneg (by norm_num : (0:ℚ) ≤ 1/10)]
    norm_num

/-- Claim C7 amended: in the stricter (investment-grade) variant, once the scan
finds a colliding placed label at height uy, the resolved position is chosen
among the candidates uy ± 0.6 and uy ± 0.9 that lie in the valid vertical
range, minimizing the collision count against all placed labels, and the
original position is kept when no candidate is in range. -/
theorem resolver_candidate_argmin (lx ly : ℚ) (used : List (ℚ × ℚ)) (uy : ℚ)
    (hcol : igFindCollision lx ly used = some uy) :
    ((∀ c ∈ igCandidates uy, ¬ igInRange c) → igAdjust lx ly used = ly) ∧
    ((∃ c ∈ igCandidates uy, igInRange c) →
      igAdjust lx ly used ∈ igCandidates uy ∧ igInRange (igAdjust lx ly used) ∧
      ∀ c ∈ igCandidates uy, igInRange c →
        igCollisions lx (igAdjust lx ly used) used ≤ igCollisions lx c used) := by
  have hadj : igAdjust lx ly used = igBest lx ly used uy := by
    rw [igAdjust, hcol]
  constructor
  · intro hnone
    rw [hadj, igBest, foldl_best_none lx used (igCandidates uy) ly hnone]
  · intro hex
    obtain ⟨r, hfold, hmem, hin, hall⟩ := foldl_best_start lx used (igCandidates uy) ly hex
    have hr : igAdjust lx ly used = r := by rw [hadj, igBest, hfold]
    rw [hr]
    exact ⟨hmem, hin, hall⟩

/-- Witness for the amended C7 at a concrete collision. -/
theorem resolver_candidate_argmin_witness :
    igAdjust 8 20 [(8, 20)] ∈ igCandidates 20 ∧ igInRange (igAdjust 8 20 [(8, 20)]) ∧
    ∀ c ∈ igCandidates 20, igInRange c →
      igCollisions 8 (igAdjust 8 20 [(8, 20)]) [(8, 20)] ≤ igCollisions 8 c [(8, 20)] := by
  have hcol : igFindCollision 8 20 [(8, 20)] = some 20 := by
    norm_num [igFindCollision]
  exact (resolver_candidate_argmin 8 20 [(8, 20)] 20 hcol).2
    ⟨20 + 3/5, by simp [igCandidates], by rw [igInRange]; norm_num⟩

/-- Claim C8 is refuted: "SD4" carries no outlook tag, yet re-normalizing its
extracted base rating ("SD") yields 1 under the S&P table while normalizing
"SD4" itself yields absent. -/
theorem normalize_idempotent_counterexample :
    containsSub upTag "SD4".data = false ∧
    containsSub dnTag "SD4".data = false ∧
    extract_base_rating "SD4" = "SD" ∧
    convert_rating_to_numeric (extract_base_rating "SD4") SP_RATINGS = some 1 ∧
    convert_rating_to_numeric "SD4" SP_RATINGS = none := by
  refine ⟨rfl, rfl, rfl, ?_, rfl⟩
  have h : convert_rating_to_numeric (extract_base_rating "SD4") SP_RATINGS
      = some ((1 : ℕ) + (0 : ℚ)) := rfl
  rw [h]; norm_num

/-- Claim C9: when all three per-agency ratings are absent the aggregated average is
absent (not zero), and the downstream grade categorization maps it to
"No Rating". -/
theorem average_rating_absent (xs : List (Option ℚ)) (h : ∀ o ∈ xs, o = none) :
    average_rating xs = none ∧ average_rating xs ≠ some 0 ∧
    categorize_by_average_rating (average_rating xs) = "No Rating" := by
  have hnil : xs.filterMap id = [] := by
    rw [List.filterMap_eq_nil_iff]
    intro a ha; exact h a ha
  have hav : average_rating xs = none := by
    simp [average_rating, hnil]
  exact ⟨hav, by rw [hav]; exact (Option.noConfusion ·), by rw [hav]; rfl⟩

/-- Witness for C9 on the record with three absent ratings. -/
theorem average_rating_absent_witness :
    average_rating [none, none, none] = none ∧
    average_rating [none, none, none] ≠ some 0 ∧
    categorize_by_average_rating (average_rating [none, none, none]) = "No Rating" :=
  average_rating_absent [none, none, none] (by simp)

/-- Claim C10: collision resolution never changes the horizontal coordinate: in both
variants every placed label's x is the input point x plus the fixed label
offset 8. -/
theorem resolver_preserves_x (pts : List (ℚ × ℚ)) :
    (create_full_plot_labels pts).map Prod.fst = pts.map (fun p => p.1 + 8) ∧
    (create_investment_grade_labels pts).map Prod.fst = pts.map (fun p => p.1 + 8) :=
  ⟨fullLoop_fst pts [], igLoop_fst pts []⟩

theorem containsSub_infix_iff (pat s : List Char) : containsSub pat s = true ↔ pat <:+: s := by
  induction s with
  | nil =>
    simp [containsSub, List.isEmpty_iff]
  | cons c rest ih =>
    rw [containsSub, Bool.or_eq_true, List.isPrefixOf_iff_prefix, ih, List.infix_cons_iff]

theorem containsSub_count (pat s : List Char) (ch : Char) (h : containsSub pat s = true) :
    pat.count ch ≤ s.count ch :=
  List.Sublist.count_le ((containsSub_infix_iff pat s).mp h).sublist ch

theorem containsSub_mem (pat s : List Char) (ch : Char) (h : containsSub pat s = true)
    (hm : ch ∈ pat) : ch ∈ s :=
  ((containsSub_infix_iff pat s).mp h).subset hm

theorem containsSub_append_self (a pat : List Char) : containsSub pat (a ++ pat) = true := by
  rw [containsSub_infix_iff]
  exact ⟨a, [], by simp⟩

theorem replaceAllFuel_congr (pat rep : List Char) :
    ∀ (f₁ : ℕ) (s : List Char) (f₂ : ℕ), s.length ≤ f₁ → s.length ≤ f₂ →
      replaceAllFuel pat rep f₁ s = replaceAllFuel pat rep f₂ s := by
  intro f₁
  induction f₁ with
  | zero =>
    intro s f₂ h1 _
    rw [Nat.le_zero, List.length_eq_zero] at h1
    subst h1
    cases f₂ <;> rfl
  | succ f₁ ih =>
    intro s f₂ h1 h2
    cases s with
    | nil => cases f₂ <;> rfl
    | cons c rest =>
      cases f₂ with
      | zero => simp at h2
      | succ f₂ =>
        simp only [List.length_cons, Nat.succ_le_succ_iff] at h1 h2
        rw [replaceAllFuel, replaceAllFuel]
        by_cases hp : pat.isPrefixOf (c :: rest) = true
        · rw [if_pos hp, if_pos hp]
          have hd : (rest.drop (pat.length - 1)).length ≤ rest.length := by
            rw [List.length_drop]; omega
          rw [ih (rest.drop (pat.length - 1)) f₂ (le_trans hd h1) (le_trans hd h2)]
        · rw [if_neg hp, if_neg hp, ih rest f₂ h1 h2]

theorem replaceAll_cons (pat rep : List Char) (c : Char) (rest : List Char) :
    replaceAll pat rep (c :: rest)
      = if pat.isPrefixOf (c :: rest) then
          rep ++ replaceAll pat rep (rest.drop (pat.length - 1))
        else c :: replaceAll pat rep rest := by
  rw [replaceAll, List.length_cons, replaceAllFuel]
  by_cases hp : pat.isPrefixOf (c :: rest) = true
  · rw [if_pos hp, if_pos hp, replaceAll,
      replaceAllFuel_congr pat rep rest.length (rest.drop (pat.length - 1))
        (rest.drop (pat.length - 1)).length (by rw [List.length_drop]; omega) (le_refl _)]
  · rw [if_neg hp, if_neg hp, replaceAll]

theorem replaceAll_of_not_contains (pat rep s : List Char)
    (h : containsSub pat s = false) : replaceAll pat rep s = s := by
  induction s with
  | nil => rfl
  | cons c rest ih =>
    rw [containsSub, Bool.or_eq_false_iff] at h
    rw [replaceAll_cons, if_neg (by rw [h.1]; exact Bool.false_ne_true), ih h.2]

theorem replaceAll_skip (p₀ : Char) (pr rep : List Char) (a : List Char) (s : List Char)
    (h : p₀ ∉ a) :
    replaceAll (p₀ :: pr) rep (a ++ s) = a ++ replaceAll (p₀ :: pr) rep s := by
  induction a with
  | nil => rfl
  | cons c a' ih =>
    have hp : ¬ (p₀ :: pr).isPrefixOf (c :: (a' ++ s)) = true := by
      intro hp
      rw [List.isPrefixOf_iff_prefix, List.cons_prefix_cons] at hp
      exact h (by rw [hp.1]; exact List.mem_cons_self c a')
    rw [List.cons_append, replaceAll_cons, if_neg hp,
      ih (fun hm => h (List.mem_cons_of_mem c hm)), List.cons_append]

theorem replaceAll_at (p₀ : Char) (pr rep : List Char) (s : List Char) :
    replaceAll (p₀ :: pr) rep ((p₀ :: pr) ++ s) = rep ++ replaceAll (p₀ :: pr) rep s := by
  rw [List.cons_append, replaceAll_cons, if_pos, List.length_cons]
  · have : (pr ++ s).drop (pr.length + 1 - 1) = s := by
      simp [List.drop_left]
    rw [this]
  · rw [List.isPrefixOf_iff_prefix, List.cons_prefix_cons]
    exact ⟨rfl, List.prefix_append pr s⟩

theorem not_contains_lt_count (pat s : List Char) (ch : Char)
    (h : s.count ch < pat.count ch) : containsSub pat s = false := by
  by_contra hne
  rw [Bool.not_eq_false] at hne
  exact absurd (containsSub_count pat s ch hne) (not_le.mpr h)

theorem not_contains_not_mem (pat s : List Char) (ch : Char)
    (hm : ch ∈ pat) (h : ch ∉ s) : containsSub pat s = false := by
  by_contra hne
  rw [Bool.not_eq_false] at hne
  exact h (containsSub_mem pat s ch hne hm)

theorem spaces_succ (n : ℕ) : spaces (n + 1) = ' ' :: spaces n := rfl

theorem count_spaces (n : ℕ) : (spaces n).count ' ' = n := List.count_replicate_self ' ' n

theorem not_prefix_spaces_tag (tr : List Char) (m : ℕ) :
    (spaces 4 ++ '[' :: tr).isPrefixOf (' ' :: (spaces (m + 4) ++ '[' :: tr)) = false := by
  by_contra hne
  rw [Bool.not_eq_false, List.isPrefixOf_iff_prefix] at hne
  have h4 : spaces 4 ++ '[' :: tr = ' ' :: ' ' :: ' ' :: ' ' :: '[' :: tr := rfl
  have h5 : spaces (m + 4) = ' ' :: ' ' :: ' ' :: ' ' :: spaces m := by
    rw [show m + 4 = (((m) + 1) + 1 + 1) + 1 by omega]
    rfl
  rw [h4, h5] at hne
  simp only [List.cons_append, List.cons_prefix_cons] at hne
  exact absurd hne.2.2.2.2.1 (by decide)

theorem replaceAll_spaces_tag (tr : List Char) :
    ∀ m, replaceAll (spaces 4 ++ '[' :: tr) [] (spaces (m + 4) ++ '[' :: tr) = spaces m := by
  intro m
  induction m with
  | zero =>
    have base := replaceAll_at ' ' (spaces 3 ++ '[' :: tr) [] []
    simp only [List.append_nil, List.nil_append] at base
    exact base
  | succ m ih =>
    have h : spaces (m + 1 + 4) ++ '[' :: tr = ' ' :: (spaces (m + 4) ++ '[' :: tr) := by
      rw [show m + 1 + 4 = (m + 4) + 1 by omega, spaces_succ, List.cons_append]
    have hnp : ¬ (spaces 4 ++ '[' :: tr).isPrefixOf
        (' ' :: (spaces (m + 4) ++ '[' :: tr)) = true := by
      rw [not_prefix_spaces_tag tr m]
      exact Bool.false_ne_true
    rw [h, replaceAll_cons, if_neg hnp, ih]
    rfl

theorem dropWhile_spaces (m : ℕ) (t : List Char) :
    (spaces m ++ t).dropWhile pyWs = t.dropWhile pyWs := by
  induction m with
  | zero => rfl
  | succ m ih =>
    rw [spaces_succ, List.cons_append, List.dropWhile_cons_of_pos (by decide)]
    exact ih

theorem pyStrip_eq_self (l : List Char)
    (h1 : ∀ c, l.head? = some c → pyWs c = false)
    (h2 : ∀ c, l.getLast? = some c → pyWs c = false) : pyStrip l = l := by
  cases l with
  | nil => rfl
  | cons c t =>
    have hc := h1 c rfl
    rw [pyStrip, lstrip, List.dropWhile_cons_of_neg (by simp [hc]), rstrip]
    cases hrev : (c :: t).reverse with
    | nil => exact absurd hrev (by simp)
    | cons c₁ r₁ =>
      have hlast : (c :: t).getLast? = some c₁ := by
        rw [← List.head?_reverse, hrev]; rfl
      rw [List.dropWhile_cons_of_neg (by simp [h2 c₁ hlast]), ← hrev, List.reverse_reverse]

theorem pyStrip_append_spaces (k : List Char) (m : ℕ) (hk : k ≠ [])
    (hall : ∀ c ∈ k, pyWs c = false) : pyStrip (k ++ spaces m) = k := by
  cases k with
  | nil => exact absurd rfl hk
  | cons c t =>
    have hc : pyWs c = false := hall c (List.mem_cons_self c t)
    rw [pyStrip, lstrip, List.cons_append, List.dropWhile_cons_of_neg (by simp [hc]),
      ← List.cons_append, rstrip, List.reverse_append,
      show (spaces m).reverse = spaces m from List.reverse_replicate m ' ',
      dropWhile_spaces]
    cases hrev : (c :: t).reverse with
    | nil => exact absurd hrev (by simp)
    | cons c₁ r₁ =>
      have hlast : (c :: t).getLast? = some c₁ := by
        rw [← List.head?_reverse, hrev]; rfl
      have hmem : c₁ ∈ c :: t := List.mem_of_mem_getLast? hlast
      rw [List.dropWhile_cons_of_neg (by simp [hall c₁ hmem]), ← hrev, List.reverse_reverse]

theorem isLetter_not_ws (c : Char) (h : isLetter c = true) : pyWs c = false := by
  by_contra hne
  rw [Bool.not_eq_false, pyWs] at hne
  simp only [Bool.or_eq_true, decide_eq_true_eq] at hne
  rcases hne with ((((rfl | rfl) | rfl) | rfl) | rfl) | rfl <;> exact absurd h (by decide)

theorem isLetter_ne_space (c : Char) (h : isLetter c = true) : c ≠ ' ' := by
  rintro rfl; exact absurd h (by decide)

theorem isLetter_ne_bracket (c : Char) (h : isLetter c = true) : c ≠ '[' := by
  rintro rfl; exact absurd h (by decide)

theorem matchAt_eq_parts (s : List Char) :
    matchAt s = keyLetters s ++ keySign s ++ keyDigit s := rfl

theorem keyLetters_all (s : List Char) : ∀ c ∈ keyLetters s, isLetter c = true :=
  fun c hc => List.mem_takeWhile_imp ((List.take_subset 3 _) hc)

theorem keyLetters_length (s : List Char) : (keyLetters s).length ≤ 3 := by
  rw [keyLetters]
  exact List.length_take_le 3 _

theorem keyLetters_cons (c : Char) (t : List Char) (h : isLetter c = true) :
    keyLetters (c :: t) = c :: (t.takeWhile isLetter).take 2 := by
  rw [keyLetters, List.takeWhile_cons_of_pos h, List.take_succ_cons]

theorem signOf_shape (l : List Char) :
    signOf l = [] ∨ signOf l = ['+'] ∨ signOf l = ['-'] := by
  cases l with
  | nil => exact Or.inl rfl
  | cons c t =>
    rw [signOf]
    by_cases hc : (c = '+' || c = '-') = true
    · rw [if_pos hc]
      simp only [Bool.or_eq_true, decide_eq_true_eq] at hc
      rcases hc with rfl | rfl
      · exact Or.inr (Or.inl rfl)
      · exact Or.inr (Or.inr rfl)
    · rw [if_neg hc]
      exact Or.inl rfl

theorem digitOf_shape (l : List Char) :
    digitOf l = [] ∨ digitOf l = ['1'] ∨ digitOf l = ['2'] ∨ digitOf l = ['3'] := by
  cases l with
  | nil => exact Or.inl rfl
  | cons c t =>
    rw [digitOf]
    by_cases hc : (c = '1' || c = '2' || c = '3') = true
    · rw [if_pos hc]
      simp only [Bool.or_eq_true, decide_eq_true_eq] at hc
      rcases hc with (rfl | rfl) | rfl
      · exact Or.inr (Or.inl rfl)
      · exact Or.inr (Or.inr (Or.inl rfl))
      · exact Or.inr (Or.inr (Or.inr rfl))
    · rw [if_neg hc]
      exact Or.inl rfl

theorem keySign_shape (s : List Char) :
    keySign s = [] ∨ keySign s = ['+'] ∨ keySign s = ['-'] := signOf_shape _

theorem keyDigit_shape (s : List Char) :
    keyDigit s = [] ∨ keyDigit s = ['1'] ∨ keyDigit s = ['2'] ∨ keyDigit s = ['3'] :=
  digitOf_shape _

/-- Core regex-shape lemma: the pattern matched greedily against a decomposed
text `ls ++ sg ++ dg ++ suffix` whose suffix head is inert returns exactly
`ls ++ sg ++ dg`. -/
theorem matchAt_decomp (ls sg dg suffix : List Char)
    (h1 : ls ≠ []) (h2 : ls.length ≤ 3) (h3 : ∀ c ∈ ls, isLetter c = true)
    (h4 : sg = [] ∨ sg = ['+'] ∨ sg = ['-'])
    (h5 : dg = [] ∨ dg = ['1'] ∨ dg = ['2'] ∨ dg = ['3'])
    (h6 : ∀ c, suffix.head? = some c →
      isLetter c = false ∧ c ≠ '+' ∧ c ≠ '-' ∧ c ≠ '1' ∧ c ≠ '2' ∧ c ≠ '3') :
    matchAt (ls ++ sg ++ dg ++ suffix) = ls ++ sg ++ dg := by
  -- the tail after the letter block never starts with a letter
  have htail : (sg ++ (dg ++ suffix)).takeWhile isLetter = [] := by
    rcases h4 with rfl | rfl | rfl
    · rcases h5 with rfl | rfl | rfl | rfl
      · cases hs : suffix with
        | nil => rfl
        | cons c r =>
          simp only [List.nil_append]
          exact List.takeWhile_cons_of_neg (by rw [(h6 c (by rw [hs]; rfl)).1]; simp)
      all_goals
        simp only [List.nil_append, List.cons_append]
        exact List.takeWhile_cons_of_neg (by decide)
    all_goals
      simp only [List.cons_append]
      exact List.takeWhile_cons_of_neg (by decide)
  have hletters : keyLetters (ls ++ sg ++ dg ++ suffix) = ls := by
    rw [keyLetters, List.append_assoc, List.append_assoc,
      List.takeWhile_append_of_pos h3, htail, List.append_nil, List.take_of_length_le h2]
  have hdrop : (ls ++ sg ++ dg ++ suffix).drop ls.length = sg ++ (dg ++ suffix) := by
    rw [List.append_assoc, List.append_assoc, List.drop_left]
  rw [matchAt_eq_parts, hletters]
  -- sign component
  have hsign : keySign (ls ++ sg ++ dg ++ suffix) = sg := by
    rw [keySign, hletters, hdrop]
    rcases h4 with rfl | rfl | rfl
    · rcases h5 with rfl | rfl | rfl | rfl
      · cases hs : suffix with
        | nil => rfl
        | cons c r =>
          simp only [List.nil_append, signOf]
          have h6c := h6 c (by rw [hs]; rfl)
          rw [if_neg]
          simp only [Bool.or_eq_true, decide_eq_true_eq]
          rintro (rfl | rfl)
          · exact h6c.2.1 rfl
          · exact h6c.2.2.1 rfl
      all_goals
        simp only [List.nil_append, List.cons_append, signOf]
        rw [if_neg (by decide)]
    all_goals
      simp only [List.cons_append, signOf]
      rw [if_pos (by decide)]
  rw [hsign]
  -- digit component
  have hdrop2 : (sg ++ (dg ++ suffix)).drop sg.length = dg ++ suffix := List.drop_left sg _
  have hdigit : keyDigit (ls ++ sg ++ dg ++ suffix) = dg := by
    rw [keyDigit, hletters, hdrop, hsign, hdrop2]
    rcases h5 with rfl | rfl | rfl | rfl
    · cases hs : suffix with
      | nil => rfl
      | cons c r =>
        simp only [List.nil_append, digitOf]
        have h6c := h6 c (by rw [hs]; rfl)
        rw [if_neg]
        simp only [Bool.or_eq_true, decide_eq_true_eq]
        rintro ((rfl | rfl) | rfl)
        · exact h6c.2.2.2.1 rfl
        · exact h6c.2.2.2.2.1 rfl
        · exact h6c.2.2.2.2.2 rfl
    all_goals
      simp only [List.cons_append, digitOf]
      rw [if_pos (by decide)]
  rw [hdigit]

theorem reSearch_cons_pos (c : Char) (t : List Char) (h : isLetter c = true) :
    reSearch (c :: t) = some (matchAt (c :: t)) := by
  rw [reSearch, if_pos h]

theorem reSearch_none_iff (l : List Char) :
    reSearch l = none ↔ ∀ c ∈ l, isLetter c = false := by
  induction l with
  | nil => simp [reSearch]
  | cons c t ih =>
    rw [reSearch]
    by_cases hc : isLetter c = true
    · simp [hc]
    · rw [if_neg hc, ih]
      constructor
      · intro h c' hc'
        rcases List.mem_cons.mp hc' with h2 | h2
        · subst h2
          cases hl : isLetter c'
          · rfl
          · exact absurd hl hc
        · exact h c' h2
      · intro h c' hc'
        exact h c' (List.mem_cons_of_mem c hc')

theorem reSearch_some_ex (l : List Char) (m : List Char) (h : reSearch l = some m) :
    ∃ c t, isLetter c = true ∧ m = matchAt (c :: t) := by
  induction l with
  | nil => exact absurd h (by rw [reSearch]; exact Option.noConfusion)
  | cons c t ih =>
    rw [reSearch] at h
    by_cases hc : isLetter c = true
    · rw [if_pos hc] at h
      exact ⟨c, t, hc, (Option.some.injEq _ _ ▸ h).symm⟩
    · rw [if_neg hc] at h
      exact ih h

theorem string_ne_of_length (l : List Char) (t : String) (h : t.data.length < l.length) :
    (⟨l⟩ : String) ≠ t := by
  intro he
  have hd : t.data = l := by rw [← he]
  rw [hd] at h
  exact lt_irrefl _ h

theorem goodKey_spec (k : List Char) (h : goodKey k = true) :
    k = keyLetters k ++ keySign k ++ keyDigit k ∧ keyLetters k ≠ [] ∧
    'u' ∉ k ∧ k ≠ "SD".data ∧ k ≠ "RD".data := by
  rw [goodKey] at h
  simp only [Bool.and_eq_true, decide_eq_true_eq] at h
  exact ⟨h.1.1.1.1, h.1.1.1.2, h.1.1.2, h.1.2, h.2⟩

theorem goodKey_chars (k : List Char) (h : goodKey k = true) :
    ∀ c ∈ k, isLetter c = true ∨ c ∈ ['+', '-', '1', '2', '3'] := by
  intro c hc
  obtain ⟨hdec, -, -, -, -⟩ := goodKey_spec k h
  rw [hdec] at hc
  rcases List.mem_append.mp hc with h2 | h2
  · rcases List.mem_append.mp h2 with h3 | h3
    · exact Or.inl (keyLetters_all k c h3)
    · rcases keySign_shape k with hs | hs | hs <;> rw [hs] at h3
      · exact absurd h3 (List.not_mem_nil c)
      · rcases List.mem_singleton.mp h3 with rfl
        exact Or.inr (by decide)
      · rcases List.mem_singleton.mp h3 with rfl
        exact Or.inr (by decide)
  · rcases keyDigit_shape k with hs | hs | hs | hs <;> rw [hs] at h2
    · exact absurd h2 (List.not_mem_nil c)
    all_goals
      rcases List.mem_singleton.mp h2 with rfl
      exact Or.inr (by decide)

theorem class_not_ws (c : Char)
    (h : isLetter c = true ∨ c ∈ ['+', '-', '1', '2', '3']) : pyWs c = false := by
  rcases h with h | h
  · exact isLetter_not_ws c h
  · fin_cases h <;> decide

theorem class_ne_space (c : Char)
    (h : isLetter c = true ∨ c ∈ ['+', '-', '1', '2', '3']) : c ≠ ' ' := by
  rcases h with h | h
  · exact isLetter_ne_space c h
  · fin_cases h <;> decide

theorem class_ne_bracket (c : Char)
    (h : isLetter c = true ∨ c ∈ ['+', '-', '1', '2', '3']) : c ≠ '[' := by
  rcases h with h | h
  · exact isLetter_ne_bracket c h
  · fin_cases h <;> decide

theorem goodKey_ne_nil (k : List Char) (h : goodKey k = true) : k ≠ [] := by
  obtain ⟨-, hne, -, -, -⟩ := goodKey_spec k h
  intro hnil
  subst hnil
  exact hne rfl

theorem clean_tag (k : List Char) (n : ℕ) (tag : List Char)
    (hsp : ' ' ∉ k) (hbr : '[' ∉ k) (hu : 'u' ∉ k)
    (htag : tag = upTag ∨ tag = dnTag) :
    replaceAll dnTag4 [] (replaceAll upTag4 [] (k ++ spaces n ++ tag))
      = if 4 ≤ n then k ++ spaces (n - 4) else k ++ spaces n ++ tag := by
  by_cases hn : 4 ≤ n
  · rw [if_pos hn]
    rcases htag with rfl | rfl
    · have hstep1 : replaceAll upTag4 [] (k ++ spaces n ++ upTag) = k ++ spaces (n - 4) := by
        have hsplit : k ++ spaces n ++ upTag = k ++ (spaces ((n - 4) + 4) ++ upTag) := by
          rw [List.append_assoc, show (n - 4) + 4 = n by omega]
        rw [hsplit, (by decide : upTag4 = ' ' :: (spaces 3 ++ upTag)),
          replaceAll_skip ' ' (spaces 3 ++ upTag) [] k _ hsp]
        have hrep := replaceAll_spaces_tag ("upgrade]".data) (n - 4)
        rw [(by decide : spaces 4 ++ '[' :: "upgrade]".data = ' ' :: (spaces 3 ++ upTag)),
          (by decide : ('[' :: "upgrade]".data : List Char) = upTag)] at hrep
        rw [hrep]
      rw [hstep1]
      apply replaceAll_of_not_contains
      apply not_contains_not_mem dnTag4 _ '[' (by decide)
      intro hmem
      rcases List.mem_append.mp hmem with h2 | h2
      · exact hbr h2
      · exact absurd (List.eq_of_mem_replicate (by rwa [spaces] at h2)) (by decide)
    · have hstep1 : replaceAll upTag4 [] (k ++ spaces n ++ dnTag) = k ++ spaces n ++ dnTag := by
        apply replaceAll_of_not_contains
        apply not_contains_not_mem upTag4 _ 'u' (by decide)
        intro hmem
        rcases List.mem_append.mp hmem with h2 | h2
        · rcases List.mem_append.mp h2 with h3 | h3
          · exact hu h3
          · exact absurd (List.eq_of_mem_replicate (by rwa [spaces] at h3)) (by decide)
        · revert h2; decide
      rw [hstep1]
      have hsplit : k ++ spaces n ++ dnTag = k ++ (spaces ((n - 4) + 4) ++ dnTag) := by
        rw [List.append_assoc, show (n - 4) + 4 = n by omega]
      rw [hsplit, (by decide : dnTag4 = ' ' :: (spaces 3 ++ dnTag)),
        replaceAll_skip ' ' (spaces 3 ++ dnTag) [] k _ hsp]
      have hrep := replaceAll_spaces_tag ("downgrade]".data) (n - 4)
      rw [(by decide : spaces 4 ++ '[' :: "downgrade]".data = ' ' :: (spaces 3 ++ dnTag)),
        (by decide : ('[' :: "downgrade]".data : List Char) = dnTag)] at hrep
      rw [hrep]
  · rw [if_neg hn]
    have hcount : (k ++ spaces n ++ tag).count ' ' = n := by
      rw [List.count_append, List.count_append, count_spaces]
      have hck : k.count ' ' = 0 := List.count_eq_zero.mpr hsp
      have hct : tag.count ' ' = 0 := by rcases htag with rfl | rfl <;> decide
      omega
    have h1 : replaceAll upTag4 [] (k ++ spaces n ++ tag) = k ++ spaces n ++ tag := by
      apply replaceAll_of_not_contains
      apply not_contains_lt_count
      rw [hcount, (by decide : upTag4.count ' ' = 4)]
      omega
    rw [h1]
    apply replaceAll_of_not_contains
    apply not_contains_lt_count
    rw [hcount, (by decide : dnTag4.count ' ' = 4)]
    omega

theorem extract_key_tag (k : List Char) (n : ℕ) (tag : List Char)
    (hk : goodKey k = true) (htag : tag = upTag ∨ tag = dnTag) :
    extract_base_rating ⟨k ++ spaces n ++ tag⟩ = ⟨k⟩ := by
  obtain ⟨hdec, hlne, hu, hsdk, hrdk⟩ := goodKey_spec k hk
  have hchars := goodKey_chars k hk
  have hsp : ' ' ∉ k := fun hm => class_ne_space _ (hchars _ hm) rfl
  have hbr : '[' ∉ k := fun hm => class_ne_bracket _ (hchars _ hm) rfl
  have hkne : k ≠ [] := goodKey_ne_nil k hk
  have hlen : 4 ≤ (k ++ spaces n ++ tag).length := by
    have htl : 9 ≤ tag.length := by rcases htag with rfl | rfl <;> decide
    have hkl : 1 ≤ k.length := List.length_pos.mpr hkne
    simp only [List.length_append]
    omega
  have hne0 : (⟨k ++ spaces n ++ tag⟩ : String) ≠ "" :=
    string_ne_of_length _ _ (lt_of_lt_of_le (by decide) hlen)
  have hne1 : (⟨k ++ spaces n ++ tag⟩ : String) ≠ "N/A" :=
    string_ne_of_length _ _ (lt_of_lt_of_le (by decide) hlen)
  have hne2 : (⟨k ++ spaces n ++ tag⟩ : String) ≠ "-" :=
    string_ne_of_length _ _ (lt_of_lt_of_le (by decide) hlen)
  have hne3 : (⟨k ++ spaces n ++ tag⟩ : String) ≠ "NR" :=
    string_ne_of_length _ _ (lt_of_lt_of_le (by decide) hlen)
  have hsdne : (⟨k⟩ : String) ≠ "SD" := fun h => hsdk (congrArg String.data h)
  have hrdne : (⟨k⟩ : String) ≠ "RD" := fun h => hrdk (congrArg String.data h)
  obtain ⟨c, ls', hkl⟩ : ∃ c ls', keyLetters k = c :: ls' := by
    cases hklc : keyLetters k with
    | nil => exact absurd hklc hlne
    | cons c ls' => exact ⟨c, ls', rfl⟩
  have hcl : isLetter c = true := keyLetters_all k c (by rw [hkl]; exact List.mem_cons_self c ls')
  have hkshape : k = c :: (ls' ++ (keySign k ++ keyDigit k)) := by
    rw [← List.cons_append, ← hkl, ← List.append_assoc, ← hdec]
  have hclean := clean_tag k n tag hsp hbr hu htag
  by_cases hn : 4 ≤ n
  · rw [if_pos hn] at hclean
    have hstrip : pyStrip (k ++ spaces (n - 4)) = k :=
      pyStrip_append_spaces k (n - 4) hkne (fun c' hc' => class_not_ws c' (hchars c' hc'))
    have hsearch : reSearch k = some k := by
      rw [hkshape, reSearch_cons_pos c _ hcl, ← hkshape]
      have hm := matchAt_decomp (keyLetters k) (keySign k) (keyDigit k) []
        hlne (keyLetters_length k) (keyLetters_all k) (keySign_shape k) (keyDigit_shape k)
        (fun c' hc' => Option.noConfusion hc')
      rw [List.append_nil, ← hdec] at hm
      rw [hm]
    simp only [extract_base_rating, hne0, hne1, hne2, hne3, or_self, or_false, false_or,
      hclean, hstrip, hsdne, hrdne, hsearch, if_false]
  · rw [if_neg hn] at hclean
    have hstrip : pyStrip (k ++ spaces n ++ tag) = k ++ spaces n ++ tag := by
      apply pyStrip_eq_self
      · intro c' hc'
        rw [hkshape, List.cons_append, List.cons_append, List.head?_cons] at hc'
        rcases Option.some.inj hc' with rfl
        exact class_not_ws _ (Or.inl hcl)
      · intro c' hc'
        have htagne : tag ≠ [] := by rcases htag with rfl | rfl <;> decide
        rw [List.getLast?_append_of_ne_nil _ htagne] at hc'
        have hcr : c' = ']' := by
          rcases htag with rfl | rfl
          · rw [(by decide : upTag.getLast? = some ']')] at hc'
            exact (Option.some.inj hc').symm
          · rw [(by decide : dnTag.getLast? = some ']')] at hc'
            exact (Option.some.inj hc').symm
        rw [hcr]
        decide
    have hsdne2 : (⟨k ++ spaces n ++ tag⟩ : String) ≠ "SD" :=
      string_ne_of_length _ _ (lt_of_lt_of_le (by decide) hlen)
    have hrdne2 : (⟨k ++ spaces n ++ tag⟩ : String) ≠ "RD" :=
      string_ne_of_length _ _ (lt_of_lt_of_le (by decide) hlen)
    have hsuf : ∀ c', (spaces n ++ tag).head? = some c' →
        isLetter c' = false ∧ c' ≠ '+' ∧ c' ≠ '-' ∧ c' ≠ '1' ∧ c' ≠ '2' ∧ c' ≠ '3' := by
      intro c' hc'
      cases n with
      | zero =>
        rw [show spaces 0 ++ tag = tag from rfl] at hc'
        rcases htag with rfl | rfl
        · rw [(by decide : upTag.head? = some '[')] at hc'
          rcases Option.some.inj hc' with rfl
          decide
        · rw [(by decide : dnTag.head? = some '[')] at hc'
          rcases Option.some.inj hc' with rfl
          decide
      | succ m =>
        rw [spaces_succ, List.cons_append, List.head?_cons] at hc'
        rcases Option.some.inj hc' with rfl
        decide
    have hshape2 : k ++ spaces n ++ tag
        = keyLetters k ++ keySign k ++ keyDigit k ++ (spaces n ++ tag) := by
      rw [← hdec]
      exact List.append_assoc k (spaces n) tag
    have hsearch2 : reSearch (k ++ spaces n ++ tag) = some k := by
      have hx : k ++ spaces n ++ tag
          = c :: (ls' ++ (keySign k ++ keyDigit k) ++ (spaces n ++ tag)) := by
        conv_lhs => rw [hkshape]
        simp [List.cons_append, List.append_assoc]
      rw [hx, reSearch_cons_pos c _ hcl, ← hx]
      have hm := matchAt_decomp (keyLetters k) (keySign k) (keyDigit k) (spaces n ++ tag)
        hlne (keyLetters_length k) (keyLetters_all k) (keySign_shape k) (keyDigit_shape k) hsuf
      rw [← hshape2] at hm
      rw [hm, ← hdec]
    simp only [extract_base_rating, hne0, hne1, hne2, hne3, or_self, or_false, false_or,
      hclean, hstrip, hsdne2, hrdne2, hsearch2, if_false]

theorem extract_sd_tag (s₀ : List Char) (n : ℕ) (tag : List Char)
    (hs : s₀ = "SD".data ∨ s₀ = "RD".data) (htag : tag = upTag ∨ tag = dnTag) :
    extract_base_rating ⟨s₀ ++ spaces n ++ tag⟩ = if 4 ≤ n then "D" else ⟨s₀⟩ := by
  have hsp : ' ' ∉ s₀ := by rcases hs with rfl | rfl <;> decide
  have hbr : '[' ∉ s₀ := by rcases hs with rfl | rfl <;> decide
  have hu : 'u' ∉ s₀ := by rcases hs with rfl | rfl <;> decide
  have hs0ne : s₀ ≠ [] := by rcases hs with rfl | rfl <;> decide
  have hallws : ∀ c ∈ s₀, pyWs c = false := by rcases hs with rfl | rfl <;> decide
  have hlen : 4 ≤ (s₀ ++ spaces n ++ tag).length := by
    have htl : 9 ≤ tag.length := by rcases htag with rfl | rfl <;> decide
    have hkl : 1 ≤ s₀.length := List.length_pos.mpr hs0ne
    simp only [List.length_append]
    omega
  have hne0 : (⟨s₀ ++ spaces n ++ tag⟩ : String) ≠ "" :=
    string_ne_of_length _ _ (lt_of_lt_of_le (by decide) hlen)
  have hne1 : (⟨s₀ ++ spaces n ++ tag⟩ : String) ≠ "N/A" :=
    string_ne_of_length _ _ (lt_of_lt_of_le (by decide) hlen)
  have hne2 : (⟨s₀ ++ spaces n ++ tag⟩ : String) ≠ "-" :=
    string_ne_of_length _ _ (lt_of_lt_of_le (by decide) hlen)
  have hne3 : (⟨s₀ ++ spaces n ++ tag⟩ : String) ≠ "NR" :=
    string_ne_of_length _ _ (lt_of_lt_of_le (by decide) hlen)
  have hclean := clean_tag s₀ n tag hsp hbr hu htag
  by_cases hn : 4 ≤ n
  · rw [if_pos hn] at hclean ⊢
    have hstrip : pyStrip (s₀ ++ spaces (n - 4)) = s₀ :=
      pyStrip_append_spaces s₀ (n - 4) hs0ne hallws
    have hsd : (⟨s₀⟩ : String) = "SD" ∨ (⟨s₀⟩ : String) = "RD" := by
      rcases hs with rfl | rfl
      · exact Or.inl rfl
      · exact Or.inr rfl
    simp only [extract_base_rating, hne0, hne1, hne2, hne3, or_self, or_false, false_or,
      if_false, hclean, hstrip]
    rw [if_pos hsd]
  · rw [if_neg hn] at hclean ⊢
    obtain ⟨c, rest, hcr, hcl⟩ : ∃ c rest, s₀ = c :: rest ∧ isLetter c = true := by
      rcases hs with rfl | rfl
      · exact ⟨'S', ['D'], by decide, by decide⟩
      · exact ⟨'R', ['D'], by decide, by decide⟩
    have hstrip : pyStrip (s₀ ++ spaces n ++ tag) = s₀ ++ spaces n ++ tag := by
      apply pyStrip_eq_self
      · intro c' hc'
        rw [hcr, List.cons_append, List.cons_append, List.head?_cons] at hc'
        rcases Option.some.inj hc' with rfl
        exact class_not_ws _ (Or.inl hcl)
      · intro c' hc'
        have htagne : tag ≠ [] := by rcases htag with rfl | rfl <;> decide
        rw [List.getLast?_append_of_ne_nil _ htagne] at hc'
        have hcrr : c' = ']' := by
          rcases htag with rfl | rfl
          · rw [(by decide : upTag.getLast? = some ']')] at hc'
            exact (Option.some.inj hc').symm
          · rw [(by decide : dnTag.getLast? = some ']')] at hc'
            exact (Option.some.inj hc').symm
        rw [hcrr]
        decide
    have hsdne2 : (⟨s₀ ++ spaces n ++ tag⟩ : String) ≠ "SD" :=
      string_ne_of_length _ _ (lt_of_lt_of_le (by decide) hlen)
    have hrdne2 : (⟨s₀ ++ spaces n ++ tag⟩ : String) ≠ "RD" :=
      string_ne_of_length _ _ (lt_of_lt_of_le (by decide) hlen)
    have hsuf : ∀ c', (spaces n ++ tag).head? = some c' →
        isLetter c' = false ∧ c' ≠ '+' ∧ c' ≠ '-' ∧ c' ≠ '1' ∧ c' ≠ '2' ∧ c' ≠ '3' := by
      intro c' hc'
      cases n with
      | zero =>
        rw [show spaces 0 ++ tag = tag from rfl] at hc'
        rcases htag with rfl | rfl
        · rw [(by decide : upTag.head? = some '[')] at hc'
          rcases Option.some.inj hc' with rfl
          decide
        · rw [(by decide : dnTag.head? = some '[')] at hc'
          rcases Option.some.inj hc' with rfl
          decide
      | succ m =>
        rw [spaces_succ, List.cons_append, List.head?_cons] at hc'
        rcases Option.some.inj hc' with rfl
        decide
    have hm := matchAt_decomp s₀ [] [] (spaces n ++ tag)
      hs0ne (by rcases hs with rfl | rfl <;> decide)
      (by rcases hs with rfl | rfl <;> decide)
      (Or.inl rfl) (Or.inl rfl) hsuf
    rw [List.append_nil, List.append_nil] at hm
    have hsearch : reSearch (s₀ ++ spaces n ++ tag) = some s₀ := by
      have hx : s₀ ++ spaces n ++ tag = c :: (rest ++ (spaces n ++ tag)) := by
        conv_lhs => rw [hcr]
        simp [List.cons_append, List.append_assoc]
      rw [hx, reSearch_cons_pos c _ hcl, ← hx, List.append_assoc, hm]
    simp only [extract_base_rating, hne0, hne1, hne2, hne3, or_self, or_false, false_or,
      if_false, hclean, hstrip, hsdne2, hrdne2, hsearch]

theorem convert_key_upgrade (k : List Char) (n : ℕ) (t : List (String × ℕ)) (v : ℕ)
    (hk : goodKey k = true) (hv : t.lookup ⟨k⟩ = some v) :
    convert_rating_to_numeric ⟨k ++ spaces n ++ upTag⟩ t = some ((v : ℚ) + 1/3) := by
  have hkne : k ≠ [] := goodKey_ne_nil k hk
  have hlen : 4 ≤ (k ++ spaces n ++ upTag).length := by
    have hkl : 1 ≤ k.length := List.length_pos.mpr hkne
    simp only [List.length_append]
    have : upTag.length = 9 := by decide
    omega
  have hne0 : (⟨k ++ spaces n ++ upTag⟩ : String) ≠ "" :=
    string_ne_of_length _ _ (lt_of_lt_of_le (by decide) hlen)
  have hup : containsSub upTag (k ++ spaces n ++ upTag) = true :=
    containsSub_append_self (k ++ spaces n) upTag
  have hex := extract_key_tag k n upTag hk (Or.inl rfl)
  have hna : (⟨k⟩ : String) ≠ "N/A" := by
    intro h
    have hdat : k = "N/A".data := congrArg String.data h
    have hmem : '/' ∈ k := by rw [hdat]; decide
    rcases goodKey_chars k hk '/' hmem with hl | hm
    · exact absurd hl (by decide)
    · exact absurd hm (by decide)
  simp only [convert_rating_to_numeric, hne0, hup, Bool.or_true, if_true, hex, hna, hv, if_false]

theorem convert_key_downgrade (k : List Char) (n : ℕ) (t : List (String × ℕ)) (v : ℕ)
    (hk : goodKey k = true) (hv : t.lookup ⟨k⟩ = some v) :
    convert_rating_to_numeric ⟨k ++ spaces n ++ dnTag⟩ t = some ((v : ℚ) - 1/3) := by
  obtain ⟨-, -, hu, -, -⟩ := goodKey_spec k hk
  have hkne : k ≠ [] := goodKey_ne_nil k hk
  have hlen : 4 ≤ (k ++ spaces n ++ dnTag).length := by
    have hkl : 1 ≤ k.length := List.length_pos.mpr hkne
    simp only [List.length_append]
    have : dnTag.length = 11 := by decide
    omega
  have hne0 : (⟨k ++ spaces n ++ dnTag⟩ : String) ≠ "" :=
    string_ne_of_length _ _ (lt_of_lt_of_le (by decide) hlen)
  have humem : 'u' ∉ k ++ spaces n ++ dnTag := by
    intro hmem
    rcases List.mem_append.mp hmem with h2 | h2
    · rcases List.mem_append.mp h2 with h3 | h3
      · exact hu h3
      · exact absurd (List.eq_of_mem_replicate (by rwa [spaces] at h3)) (by decide)
    · revert h2; decide
  have hu4 : containsSub upTag4 (k ++ spaces n ++ dnTag) = false :=
    not_contains_not_mem upTag4 _ 'u' (by decide) humem
  have hu0 : containsSub upTag (k ++ spaces n ++ dnTag) = false :=
    not_contains_not_mem upTag _ 'u' (by decide) humem
  have hdn : containsSub dnTag (k ++ spaces n ++ dnTag) = true :=
    containsSub_append_self (k ++ spaces n) dnTag
  have hex := extract_key_tag k n dnTag hk (Or.inr rfl)
  have hna : (⟨k⟩ : String) ≠ "N/A" := by
    intro h
    have hdat : k = "N/A".data := congrArg String.data h
    have hmem : '/' ∈ k := by rw [hdat]; decide
    rcases goodKey_chars k hk '/' hmem with hl | hm
    · exact absurd hl (by decide)
    · exact absurd hm (by decide)
  have hsub : ((v : ℚ) + (-1/3)) = (v : ℚ) - 1/3 := by ring
  simp only [convert_rating_to_numeric, hne0, hu4, hu0, hdn, Bool.or_true, Bool.or_false,
    Bool.false_or, Bool.false_eq_true, if_true, if_false, hex, hna, hv, hsub]

theorem convert_sd_up (s₀ : List Char) (n : ℕ) (t : List (String × ℕ)) (vD : ℕ)
    (hs : s₀ = "SD".data ∨ s₀ = "RD".data)
    (hD : t.lookup "D" = some vD) (hSD : t.lookup ⟨s₀⟩ = none) :
    convert_rating_to_numeric ⟨s₀ ++ spaces n ++ upTag⟩ t
      = if 4 ≤ n then some ((vD : ℚ) + 1/3) else none := by
  have hs0ne : s₀ ≠ [] := by rcases hs with rfl | rfl <;> decide
  have hlen : 4 ≤ (s₀ ++ spaces n ++ upTag).length := by
    have hkl : 1 ≤ s₀.length := List.length_pos.mpr hs0ne
    simp only [List.length_append]
    have : upTag.length = 9 := by decide
    omega
  have hne0 : (⟨s₀ ++ spaces n ++ upTag⟩ : String) ≠ "" :=
    string_ne_of_length _ _ (lt_of_lt_of_le (by decide) hlen)
  have hup : containsSub upTag (s₀ ++ spaces n ++ upTag) = true :=
    containsSub_append_self (s₀ ++ spaces n) upTag
  have hex := extract_sd_tag s₀ n upTag hs (Or.inl rfl)
  by_cases hn : 4 ≤ n
  · rw [if_pos hn] at hex ⊢
    simp only [convert_rating_to_numeric, hne0, hup, Bool.or_true, if_true, hex,
      (by decide : ("D" : String) ≠ "N/A"), hD, if_false]
  · rw [if_neg hn] at hex ⊢
    have hna : (⟨s₀⟩ : String) ≠ "N/A" := by rcases hs with rfl | rfl <;> decide
    simp only [convert_rating_to_numeric, hne0, hup, Bool.or_true, if_true, hex, hna,
      hSD, if_false]

theorem convert_sd_dn (s₀ : List Char) (n : ℕ) (t : List (String × ℕ)) (vD : ℕ)
    (hs : s₀ = "SD".data ∨ s₀ = "RD".data)
    (hD : t.lookup "D" = some vD) (hSD : t.lookup ⟨s₀⟩ = none) :
    convert_rating_to_numeric ⟨s₀ ++ spaces n ++ dnTag⟩ t
      = if 4 ≤ n then some ((vD : ℚ) - 1/3) else none := by
  have hs0ne : s₀ ≠ [] := by rcases hs with rfl | rfl <;> decide
  have hu : 'u' ∉ s₀ := by rcases hs with rfl | rfl <;> decide
  have hlen : 4 ≤ (s₀ ++ spaces n ++ dnTag).length := by
    have hkl : 1 ≤ s₀.length := List.length_pos.mpr hs0ne
    simp only [List.length_append]
    have : dnTag.length = 11 := by decide
    omega
  have hne0 : (⟨s₀ ++ spaces n ++ dnTag⟩ : String) ≠ "" :=
    string_ne_of_length _ _ (lt_of_lt_of_le (by decide) hlen)
  have humem : 'u' ∉ s₀ ++ spaces n ++ dnTag := by
    intro hmem
    rcases List.mem_append.mp hmem with h2 | h2
    · rcases List.mem_append.mp h2 with h3 | h3
      · exact hu h3
      · exact absurd (List.eq_of_mem_replicate (by rwa [spaces] at h3)) (by decide)
    · revert h2; decide
  have hu4 : containsSub upTag4 (s₀ ++ spaces n ++ dnTag) = false :=
    not_contains_not_mem upTag4 _ 'u' (by decide) humem
  have hu0 : containsSub upTag (s₀ ++ spaces n ++ dnTag) = false :=
    not_contains_not_mem upTag _ 'u' (by decide) humem
  have hdn : containsSub dnTag (s₀ ++ spaces n ++ dnTag) = true :=
    containsSub_append_self (s₀ ++ spaces n) dnTag
  have hex := extract_sd_tag s₀ n dnTag hs (Or.inr rfl)
  by_cases hn : 4 ≤ n
  · rw [if_pos hn] at hex ⊢
    have hsub : ((vD : ℚ) + (-1/3)) = (vD : ℚ) - 1/3 := by ring
    simp only [convert_rating_to_numeric, hne0, hu4, hu0, hdn, Bool.or_true, Bool.or_false,
      Bool.false_or, Bool.false_eq_true, if_true, if_false, hex,
      (by decide : ("D" : String) ≠ "N/A"), hD, hsub]
  · rw [if_neg hn] at hex ⊢
    have hna : (⟨s₀⟩ : String) ≠ "N/A" := by rcases hs with rfl | rfl <;> decide
    simp only [convert_rating_to_numeric, hne0, hu4, hu0, hdn, Bool.or_true, Bool.or_false,
      Bool.false_or, Bool.false_eq_true, if_true, if_false, hex, hna, hSD]

theorem lookup_eq_some_of_mem :
    ∀ (t : List (String × ℕ)), (t.map Prod.fst).Nodup → ∀ p ∈ t, t.lookup p.1 = some p.2 := by
  intro t
  induction t with
  | nil =>
    intro _ p hp
    cases hp
  | cons q rest ih =>
    intro hnd p hp
    obtain ⟨qk, qv⟩ := q
    rw [List.map_cons, List.nodup_cons] at hnd
    rcases List.mem_cons.mp hp with rfl | hmem
    · simp [List.lookup]
    · have hne : p.1 ≠ qk := by
        intro he
        have hin : p.1 ∈ rest.map Prod.fst := List.mem_map_of_mem Prod.fst hmem
        rw [he] at hin
        exact hnd.1 hin
      have hbeq : (p.1 == qk) = false := beq_eq_false_iff_ne.mpr hne
      simp only [List.lookup, hbeq]
      exact ih hnd.2 p hmem

/-- Claim C4 amended: for every key of an agency table, any number of space
characters (zero or more) between the key and the outlook tag yields the
key value ± 1/3; the special indicators "SD"/"RD" are recognised only when
at least the four scraper spaces separate them from the tag — with fewer
spaces the result is absent. -/
theorem outlook_whitespace_amended :
    (∀ t ∈ [SP_RATINGS, MOODYS_RATINGS, FITCH_RATINGS], ∀ p ∈ t, ∀ n : ℕ,
      convert_rating_to_numeric ⟨p.1.data ++ spaces n ++ upTag⟩ t = some ((p.2 : ℚ) + 1/3) ∧
      convert_rating_to_numeric ⟨p.1.data ++ spaces n ++ dnTag⟩ t = some ((p.2 : ℚ) - 1/3)) ∧
    (∀ s ∈ ["SD", "RD"], ∀ t ∈ [SP_RATINGS, FITCH_RATINGS], ∀ n : ℕ,
      convert_rating_to_numeric ⟨s.data ++ spaces n ++ upTag⟩ t
        = (if 4 ≤ n then some ((1 : ℚ) + 1/3) else none) ∧
      convert_rating_to_numeric ⟨s.data ++ spaces n ++ dnTag⟩ t
        = (if 4 ≤ n then some ((1 : ℚ) - 1/3) else none)) := by
  constructor
  · intro t ht p hp n
    have hgood : ∀ q ∈ t, goodKey q.1.data = true := by
      simp only [List.mem_cons, List.not_mem_nil, or_false] at ht
      rcases ht with rfl | rfl | rfl <;> decide
    have hnd : (t.map Prod.fst).Nodup := by
      simp only [List.mem_cons, List.not_mem_nil, or_false] at ht
      rcases ht with rfl | rfl | rfl <;> decide
    have hg : goodKey p.1.data = true := hgood p hp
    have hl : t.lookup p.1 = some p.2 := lookup_eq_some_of_mem t hnd p hp
    exact ⟨convert_key_upgrade p.1.data n t p.2 hg hl,
      convert_key_downgrade p.1.data n t p.2 hg hl⟩
  · intro s hs t ht n
    simp only [List.mem_cons, List.not_mem_nil, or_false] at hs ht
    have hsd : s.data = "SD".data ∨ s.data = "RD".data := by
      rcases hs with rfl | rfl
      · exact Or.inl rfl
      · exact Or.inr rfl
    have hD : t.lookup "D" = some 1 := by rcases ht with rfl | rfl <;> decide
    have hSD : t.lookup ⟨s.data⟩ = none := by
      rcases ht with rfl | rfl <;> rcases hs with rfl | rfl <;> decide
    exact ⟨convert_sd_up s.data n t 1 hsd hD hSD, convert_sd_dn s.data n t 1 hsd hD hSD⟩

/-- Witness for the amended C4: "AA+" with two spaces before the tag, and
"SD" with no spaces and with five spaces. -/
theorem outlook_whitespace_amended_witness :
    convert_rating_to_numeric ⟨"AA+".data ++ spaces 2 ++ upTag⟩ SP_RATINGS
      = some ((21 : ℚ) + 1/3) ∧
    convert_rating_to_numeric ⟨"SD".data ++ spaces 0 ++ upTag⟩ SP_RATINGS
      = (if 4 ≤ 0 then some ((1 : ℚ) + 1/3) else none) ∧
    convert_rating_to_numeric ⟨"SD".data ++ spaces 5 ++ upTag⟩ SP_RATINGS
      = (if 4 ≤ 5 then some ((1 : ℚ) + 1/3) else none) :=
  ⟨(outlook_whitespace_amended.1 SP_RATINGS (by decide) ("AA+", 21) (by decide) 2).1,
   (outlook_whitespace_amended.2 "SD" (by decide) SP_RATINGS (by decide) 0).1,
   (outlook_whitespace_amended.2 "SD" (by decide) SP_RATINGS (by decide) 5).1⟩

theorem head?_dropWhile_false (p : Char → Bool) (l : List Char) (c : Char)
    (h : (l.dropWhile p).head? = some c) : p c = false := by
  have hd := List.head?_dropWhile_not p l
  rw [h] at hd
  exact hd

theorem containsSub_mono (pat1 pat2 s : List Char) (hsub : pat1 <:+: pat2)
    (h : containsSub pat2 s = true) : containsSub pat1 s = true := by
  rw [containsSub_infix_iff] at h ⊢
  exact hsub.trans h

theorem upTag_infix_upTag4 : upTag <:+: upTag4 := ⟨spaces 4, [], by decide⟩

theorem dnTag_infix_dnTag4 : dnTag <:+: dnTag4 := ⟨spaces 4, [], by decide⟩

theorem pyStrip_idem (l : List Char) : pyStrip (pyStrip l) = pyStrip l := by
  apply pyStrip_eq_self
  · intro c hc
    have hpre : pyStrip l <+: lstrip l := by
      rw [pyStrip, rstrip]
      have hsuf : (lstrip l).reverse.dropWhile pyWs <:+ (lstrip l).reverse :=
        List.dropWhile_suffix pyWs
      have := List.reverse_prefix.mpr hsuf
      rwa [List.reverse_reverse] at this
    obtain ⟨r, hr⟩ := hpre
    cases hps : pyStrip l with
    | nil => rw [hps] at hc; exact Option.noConfusion hc
    | cons c₀ t₀ =>
      rw [hps] at hc hr
      have hceq : c₀ = c := Option.some.inj (by rw [← hc]; rfl)
      have hhead : (lstrip l).head? = some c₀ := by
        rw [← hr, List.cons_append, List.head?_cons]
      rw [← hceq]
      exact head?_dropWhile_false pyWs l c₀ hhead
  · intro c hc
    rw [← List.head?_reverse] at hc
    rw [pyStrip, rstrip, List.reverse_reverse] at hc
    exact head?_dropWhile_false pyWs (lstrip l).reverse c hc

theorem matchAt_chars (s : List Char) :
    ∀ c ∈ matchAt s, isLetter c = true ∨ c ∈ ['+', '-', '1', '2', '3'] := by
  intro c hc
  rw [matchAt_eq_parts] at hc
  rcases List.mem_append.mp hc with h2 | h2
  · rcases List.mem_append.mp h2 with h3 | h3
    · exact Or.inl (keyLetters_all s c h3)
    · rcases keySign_shape s with hs | hs | hs <;> rw [hs] at h3
      · exact absurd h3 (List.not_mem_nil c)
      all_goals
        rcases List.mem_singleton.mp h3 with rfl
        exact Or.inr (by decide)
  · rcases keyDigit_shape s with hs | hs | hs | hs <;> rw [hs] at h2
    · exact absurd h2 (List.not_mem_nil c)
    all_goals
      rcases List.mem_singleton.mp h2 with rfl
      exact Or.inr (by decide)

theorem matchAt_head (c : Char) (t : List Char) (h : isLetter c = true) :
    ∃ r, matchAt (c :: t) = c :: r := by
  rw [matchAt_eq_parts, keyLetters_cons c t h, List.cons_append, List.cons_append]
  exact ⟨_, rfl⟩

theorem matchAt_idem (c : Char) (t : List Char) (h : isLetter c = true) :
    matchAt (matchAt (c :: t)) = matchAt (c :: t) := by
  have hne : keyLetters (c :: t) ≠ [] := by
    rw [keyLetters_cons c t h]
    exact List.cons_ne_nil c _
  have hm := matchAt_decomp (keyLetters (c :: t)) (keySign (c :: t)) (keyDigit (c :: t)) []
    hne (keyLetters_length (c :: t)) (keyLetters_all (c :: t))
    (keySign_shape (c :: t)) (keyDigit_shape (c :: t))
    (fun c' hc' => Option.noConfusion hc')
  rw [List.append_nil, ← matchAt_eq_parts] at hm
  exact hm

theorem pyStrip_of_all (l : List Char) (hall : ∀ c ∈ l, pyWs c = false) :
    pyStrip l = l := by
  cases hl : l with
  | nil => rfl
  | cons c t =>
    rw [← hl]
    have hsp := pyStrip_append_spaces l 0 (by rw [hl]; exact List.cons_ne_nil c t) hall
    rwa [show spaces 0 = ([] : List Char) from rfl, List.append_nil] at hsp

theorem convert_notag (s : String) (t : List (String × ℕ))
    (h0 : s ≠ "")
    (hu4 : containsSub upTag4 s.data = false) (hu0 : containsSub upTag s.data = false)
    (hd4 : containsSub dnTag4 s.data = false) (hd0 : containsSub dnTag s.data = false)
    (hna : extract_base_rating s ≠ "N/A") :
    convert_rating_to_numeric s t
      = match t.lookup (extract_base_rating s) with
        | none => none
        | some v => some ((v : ℚ)) := by
  simp only [convert_rating_to_numeric, h0, hu4, hu0, hd4, hd0, Bool.or_self, Bool.false_or,
    Bool.or_false, Bool.false_eq_true, if_false, hna]
  cases t.lookup (extract_base_rating s) with
  | none => rfl
  | some v => simp

theorem normalize_idempotent_amended :
    ∀ (x : String), ∀ t ∈ [SP_RATINGS, MOODYS_RATINGS, FITCH_RATINGS],
      containsSub upTag x.data = false → containsSub dnTag x.data = false →
      extract_base_rating x ≠ "SD" → extract_base_rating x ≠ "RD" →
      convert_rating_to_numeric (extract_base_rating x) t
        = convert_rating_to_numeric x t := by
  intro x t ht hu hd hsd hrd
  simp only [List.mem_cons, List.not_mem_nil, or_false] at ht
  by_cases hearly : x = "" ∨ x = "N/A" ∨ x = "-" ∨ x = "NR"
  · have hex : extract_base_rating x = "N/A" := by
      rw [extract_base_rating, if_pos hearly]
    rw [hex]
    rcases hearly with rfl | rfl | rfl | rfl <;> rfl
  · push_neg at hearly
    obtain ⟨hne0, hne1, hne2, hne3⟩ := hearly
    have hu4 : containsSub upTag4 x.data = false := by
      by_contra hcon
      rw [Bool.not_eq_false] at hcon
      have h2 := containsSub_mono upTag upTag4 x.data upTag_infix_upTag4 hcon
      rw [hu] at h2
      exact Bool.false_ne_true h2
    have hd4 : containsSub dnTag4 x.data = false := by
      by_contra hcon
      rw [Bool.not_eq_false] at hcon
      have h2 := containsSub_mono dnTag dnTag4 x.data dnTag_infix_dnTag4 hcon
      rw [hd] at h2
      exact Bool.false_ne_true h2
    have hclean : replaceAll dnTag4 [] (replaceAll upTag4 [] x.data) = x.data := by
      rw [replaceAll_of_not_contains _ _ _ hu4, replaceAll_of_not_contains _ _ _ hd4]
    by_cases hsdc : (⟨pyStrip x.data⟩ : String) = "SD" ∨ (⟨pyStrip x.data⟩ : String) = "RD"
    · have hex : extract_base_rating x = "D" := by
        simp only [extract_base_rating, hne0, hne1, hne2, hne3, or_self, or_false, false_or,
          if_false, hclean, if_pos hsdc]
      rw [hex]
      have hDex : extract_base_rating "D" = "D" := by decide
      rw [convert_notag "D" t (by decide) (by decide) (by decide) (by decide) (by decide)
          (by decide), hDex,
        convert_notag x t hne0 hu4 hu hd4 hd (by rw [hex]; decide), hex]
    · cases hsearch : reSearch (pyStrip x.data) with
      | none =>
        have hex : extract_base_rating x = ⟨pyStrip x.data⟩ := by
          simp only [extract_base_rating, hne0, hne1, hne2, hne3, or_self, or_false, false_or,
            if_false, hclean, if_neg hsdc, hsearch]
        have hnl : ∀ c ∈ pyStrip x.data, isLetter c = false :=
          (reSearch_none_iff (pyStrip x.data)).mp hsearch
        by_cases hE : (⟨pyStrip x.data⟩ : String) = ""
        · rw [hex, hE]
          have hL : convert_rating_to_numeric "" t = none := rfl
          rw [hL, convert_notag x t hne0 hu4 hu hd4 hd (by rw [hex, hE]; decide), hex, hE]
          rcases ht with rfl | rfl | rfl <;> rfl
        · by_cases hB : (⟨pyStrip x.data⟩ : String) = "-"
          · rw [hex, hB]
            have hL : convert_rating_to_numeric "-" t = none := rfl
            rw [hL, convert_notag x t hne0 hu4 hu hd4 hd (by rw [hex, hB]; decide), hex, hB]
            rcases ht with rfl | rfl | rfl <;> rfl
          · have hnast : (⟨pyStrip x.data⟩ : String) ≠ "N/A" := by
              intro hh
              have hdat : pyStrip x.data = "N/A".data := congrArg String.data hh
              have h2 : isLetter 'N' = false := hnl 'N' (by rw [hdat]; decide)
              exact absurd h2 (by decide)
            have hNR : (⟨pyStrip x.data⟩ : String) ≠ "NR" := by
              intro hh
              have hdat : pyStrip x.data = "NR".data := congrArg String.data hh
              have h2 : isLetter 'N' = false := hnl 'N' (by rw [hdat]; decide)
              exact absurd h2 (by decide)
            have hust : 'u' ∉ pyStrip x.data := fun hm =>
              absurd (hnl 'u' hm) (by decide)
            have hdst : 'd' ∉ pyStrip x.data := fun hm =>
              absurd (hnl 'd' hm) (by decide)
            have hcu4 : containsSub upTag4 (pyStrip x.data) = false :=
              not_contains_not_mem _ _ 'u' (by decide) hust
            have hcu0 : containsSub upTag (pyStrip x.data) = false :=
              not_contains_not_mem _ _ 'u' (by decide) hust
            have hcd4 : containsSub dnTag4 (pyStrip x.data) = false :=
              not_contains_not_mem _ _ 'd' (by decide) hdst
            have hcd0 : containsSub dnTag (pyStrip x.data) = false :=
              not_contains_not_mem _ _ 'd' (by decide) hdst
            have hcleanst : replaceAll dnTag4 [] (replaceAll upTag4 [] (pyStrip x.data))
                = pyStrip x.data := by
              rw [replaceAll_of_not_contains _ _ _ hcu4, replaceAll_of_not_contains _ _ _ hcd4]
            have hstripst : pyStrip (pyStrip x.data) = pyStrip x.data := pyStrip_idem x.data
            have hex2 : extract_base_rating ⟨pyStrip x.data⟩ = ⟨pyStrip x.data⟩ := by
              simp only [extract_base_rating, hE, hB, hnast, hNR, or_self, or_false, false_or,
                if_false, hcleanst, hstripst, if_neg hsdc, hsearch]
            rw [hex,
              convert_notag ⟨pyStrip x.data⟩ t hE hcu4 hcu0 hcd4 hcd0 (by rw [hex2]; exact hnast),
              hex2, convert_notag x t hne0 hu4 hu hd4 hd (by rw [hex]; exact hnast), hex]
      | some m =>
        have hex : extract_base_rating x = ⟨m⟩ := by
          simp only [extract_base_rating, hne0, hne1, hne2, hne3, or_self, or_false, false_or,
            if_false, hclean, if_neg hsdc, hsearch]
        obtain ⟨c, tt, hcl, hm⟩ := reSearch_some_ex (pyStrip x.data) m hsearch
        have hmchars : ∀ ch ∈ m, isLetter ch = true ∨ ch ∈ ['+', '-', '1', '2', '3'] :=
          fun ch hch => matchAt_chars (c :: tt) ch (by rwa [← hm])
        obtain ⟨r, hmr⟩ : ∃ r, m = c :: r := by rw [hm]; exact matchAt_head c tt hcl
        have hmnil : (⟨m⟩ : String) ≠ "" := by
          intro hh
          have hdat : m = "".data := congrArg String.data hh
          rw [hmr] at hdat
          exact List.cons_ne_nil c r hdat
        have hmNA : (⟨m⟩ : String) ≠ "N/A" := by
          intro hh
          have hdat : m = "N/A".data := congrArg String.data hh
          have hmem : '/' ∈ m := by rw [hdat]; decide
          rcases hmchars '/' hmem with h2 | h2
          · exact absurd h2 (by decide)
          · exact absurd h2 (by decide)
        have hmdash : (⟨m⟩ : String) ≠ "-" := by
          intro hh
          have hdat : m = "-".data := congrArg String.data hh
          rw [hmr] at hdat
          have : c = '-' := (List.cons.injEq c r '-' []).mp hdat |>.1
          rw [this] at hcl
          exact absurd hcl (by decide)
        by_cases hmNR : (⟨m⟩ : String) = "NR"
        · rw [hex, hmNR]
          have hL : convert_rating_to_numeric "NR" t = none := rfl
          rw [hL, convert_notag x t hne0 hu4 hu hd4 hd (by rw [hex, hmNR]; decide), hex, hmNR]
          rcases ht with rfl | rfl | rfl <;> rfl
        · have hbrm : '[' ∉ m := fun hmem => by
            rcases hmchars '[' hmem with h2 | h2
            · exact absurd h2 (by decide)
            · exact absurd h2 (by decide)
          have hcu4 : containsSub upTag4 m = false :=
            not_contains_not_mem _ _ '[' (by decide) hbrm
          have hcu0 : containsSub upTag m = false :=
            not_contains_not_mem _ _ '[' (by decide) hbrm
          have hcd4 : containsSub dnTag4 m = false :=
            not_contains_not_mem _ _ '[' (by decide) hbrm
          have hcd0 : containsSub dnTag m = false :=
            not_contains_not_mem _ _ '[' (by decide) hbrm
          have hcleanm : replaceAll dnTag4 [] (replaceAll upTag4 [] m) = m := by
            rw [replaceAll_of_not_contains _ _ _ hcu4, replaceAll_of_not_contains _ _ _ hcd4]
          have hstripm : pyStrip m = m :=
            pyStrip_of_all m (fun ch hch => class_not_ws ch (hmchars ch hch))
          have hsdm : (⟨m⟩ : String) ≠ "SD" := by rw [← hex]; exact hsd
          have hrdm : (⟨m⟩ : String) ≠ "RD" := by rw [← hex]; exact hrd
          have hsearchm : reSearch m = some m := by
            rw [hmr, reSearch_cons_pos c r hcl, ← hmr, hm,
              matchAt_idem c tt hcl, ← hm]
          have hex2 : extract_base_rating ⟨m⟩ = ⟨m⟩ := by
            simp only [extract_base_rating, hmnil, hmNA, hmdash, hmNR, or_self, or_false,
              false_or, if_false, hcleanm, hstripm, hsdm, hrdm, hsearchm]
          rw [hex,
            convert_notag ⟨m⟩ t hmnil hcu4 hcu0 hcd4 hcd0 (by rw [hex2]; exact hmNA),
            hex2, convert_notag x t hne0 hu4 hu hd4 hd (by rw [hex]; exact hmNA), hex]

theorem normalize_idempotent_amended_witness :
    convert_rating_to_numeric (extract_base_rating " AA+ ") SP_RATINGS
      = convert_rating_to_numeric " AA+ " SP_RATINGS :=
  normalize_idempotent_amended " AA+ " SP_RATINGS (by decide) (by decide) (by decide)
    (by decide) (by decide)

end BondData
